import Mathlib

/-!
Verification of the Connect Four engine (game.py, minimax.py).

The board model, win detection, heuristic evaluation, the depth-limited
minimax search with alpha-beta pruning, and the best-move driver are
embedded as executable Lean functions, and the specification claims about
them are proved or refuted below.

Conventions of the embedding:
* a board is a total function from (row, column) to a cell value
  (0 = empty, 1 = player 1, 2 = player 2); code only ever reads cells with
  row < 6 and column < 7;
* Python floats -inf / +inf used as search bounds are embedded by the
  linearly ordered type `WithBot (WithTop Int)`; every value the search
  actually produces is a finite integer (proved below);
* functions that can raise in Python return `Option` here, `none` marking
  the raise;
* the recursion of `minimax` is not structural (the depth budget may be
  negative and is then never the reason the recursion stops), so
  `minimaxGo` carries explicit fuel; `emptyCount b + 1` units of fuel are
  proved sufficient (claim C10), and `minimax` is the function obtained at
  that fuel.
-/

set_option maxRecDepth 40000

/-- Number of board rows (game.py `ROWS`). -/
def ROWS : ℕ := 6

/-- Number of board columns (game.py `COLS`). -/
def COLS : ℕ := 7

/-- Cell value of an empty cell (game.py `EMPTY`). -/
def EMPTY : ℕ := 0

/-- Cell value of player 1 (game.py `PLAYER_1`). -/
def PLAYER_1 : ℕ := 1

/-- Cell value of player 2 (game.py `PLAYER_2`). -/
def PLAYER_2 : ℕ := 2

/-- Number of aligned pieces needed to win (game.py `WIN_LENGTH`). -/
def WIN_LENGTH : ℕ := 4

/-- Numeric value of the row count. -/
theorem ROWS_eq : ROWS = 6 := rfl

/-- Numeric value of the column count. -/
theorem COLS_eq : COLS = 7 := rfl

/-- A board state: cell value at (row, column).  Row 0 is the top row,
row `ROWS - 1` the bottom row.  The code only reads rows `< ROWS` and
columns `< COLS`. -/
def Board : Type := ℕ → ℕ → ℕ

/-- game.py `create_board`: the all-empty board. -/
def create_board : Board := fun _ _ => EMPTY

/-- game.py `get_legal_moves`: the columns whose top cell (row 0) is
empty, in ascending column order. -/
def get_legal_moves (b : Board) : List ℕ :=
  (List.range COLS).filter (fun col => b 0 col == EMPTY)

/-- game.py `make_move`: drop a piece of `player` into column `col`.
Returns `none` where the Python code raises `ValueError` (column out of
bounds, or column full); otherwise returns the new board in which the
lowest empty cell of the column (found by scanning rows from the bottom
up) now holds `player`.  The input board is a value and is not modified. -/
def make_move (b : Board) (col : ℤ) (player : ℕ) : Option Board :=
  if col < 0 ∨ (COLS : ℤ) ≤ col then none
  else if b 0 col.toNat ≠ EMPTY then none
  else some (match ((List.range ROWS).reverse).find? (fun row => b row col.toNat == EMPTY) with
    | some row => fun r c => if r = row ∧ c = col.toNat then player else b r c
    | none => b)

/-- game.py `_check_window`: all four cells of the window belong to
`player`. -/
def _check_window (window : List ℕ) (player : ℕ) : Bool :=
  window.all (· == player)

/-- Horizontal windows, in the scan order of game.py `get_winner`:
rows 0..ROWS-1 outer, start columns 0..COLS-WIN_LENGTH inner. -/
def horizWindows (b : Board) : List (List ℕ) :=
  (List.range ROWS).flatMap fun row =>
    (List.range (COLS - WIN_LENGTH + 1)).map fun col =>
      (List.range WIN_LENGTH).map fun i => b row (col + i)

/-- Vertical windows, in the scan order of game.py `get_winner`:
start rows 0..ROWS-WIN_LENGTH outer, columns 0..COLS-1 inner. -/
def vertWindows (b : Board) : List (List ℕ) :=
  (List.range (ROWS - WIN_LENGTH + 1)).flatMap fun row =>
    (List.range COLS).map fun col =>
      (List.range WIN_LENGTH).map fun i => b (row + i) col

/-- Positively sloped diagonal windows, in the scan order of game.py
`get_winner`: start rows 0..ROWS-WIN_LENGTH outer, start columns
0..COLS-WIN_LENGTH inner, cells going down-right. -/
def diagPosWindows (b : Board) : List (List ℕ) :=
  (List.range (ROWS - WIN_LENGTH + 1)).flatMap fun row =>
    (List.range (COLS - WIN_LENGTH + 1)).map fun col =>
      (List.range WIN_LENGTH).map fun i => b (row + i) (col + i)

/-- Negatively sloped diagonal windows, in the scan order of game.py
`get_winner`: start rows WIN_LENGTH-1..ROWS-1 outer, start columns
0..COLS-WIN_LENGTH inner, cells going up-right. -/
def diagNegWindows (b : Board) : List (List ℕ) :=
  (List.range' (WIN_LENGTH - 1) (ROWS - (WIN_LENGTH - 1))).flatMap fun row =>
    (List.range (COLS - WIN_LENGTH + 1)).map fun col =>
      (List.range WIN_LENGTH).map fun i => b (row - i) (col + i)

/-- All 4-cell windows of the board in exactly the order game.py
`get_winner` (and `heuristic_evaluate`) visits them: horizontal, then
vertical, then both diagonal families. -/
def allWindows (b : Board) : List (List ℕ) :=
  horizWindows b ++ vertWindows b ++ diagPosWindows b ++ diagNegWindows b

/-- Inner player loop of game.py `get_winner`: given one window, check
player 1 first, then player 2. -/
def windowHit (window : List ℕ) : Option ℕ :=
  if _check_window window PLAYER_1 then some PLAYER_1
  else if _check_window window PLAYER_2 then some PLAYER_2
  else none

/-- game.py `get_winner`: the player owning the first all-one-player
window met during the fixed scan of `allWindows`, or `none`. -/
def get_winner (b : Board) : Option ℕ :=
  (allWindows b).findSome? windowHit

/-- game.py `is_terminal`: someone has won, or no legal move is left. -/
def is_terminal (b : Board) : Bool :=
  (get_winner b).isSome || (get_legal_moves b).length == 0

/-- game.py `utility`: +1 if `ai_player` is the winner, -1 if some other
player is the winner, 0 if there is no winner.  Total on all boards. -/
def utility (b : Board) (ai_player : ℕ) : ℤ :=
  match get_winner b with
  | some w => if w = ai_player then 1 else -1
  | none => 0

/-- game.py `get_opponent`. -/
def get_opponent (player : ℕ) : ℕ :=
  if player = PLAYER_2 then PLAYER_1 else PLAYER_2

/-- minimax.py `_score_window`: heuristic score of one 4-cell window.
The two `if` chains of the source (own-piece patterns, then opponent
patterns) are added. -/
def _score_window (window : List ℕ) (ai_player opponent : ℕ) : ℤ :=
  let ai_count := window.countP (· == ai_player)
  let opp_count := window.countP (· == opponent)
  let empty_count := window.countP (· == EMPTY)
  (if ai_count = 4 then 100
   else if ai_count = 3 ∧ empty_count = 1 then 10
   else if ai_count = 2 ∧ empty_count = 2 then 5
   else 0)
  + (if opp_count = 3 ∧ empty_count = 1 then -8
     else if opp_count = 2 ∧ empty_count = 2 then -4
     else 0)

/-- minimax.py `heuristic_evaluate`: center-column bonus plus the sum of
the window scores over the same full-board scan as `get_winner`. -/
def heuristic_evaluate (b : Board) (ai_player : ℕ) : ℤ :=
  let opponent := get_opponent ai_player
  let center_count := ((List.range ROWS).filter (fun r => b r (COLS / 2) == ai_player)).length
  (center_count : ℤ) * 6
  + ((allWindows b).map (fun w => _score_window w ai_player opponent)).sum

/-- One of the two player identities handed to the search as the fixed
AI player (`PLAYER_1` or `PLAYER_2`). -/
inductive Player : Type
  | P1 : Player
  | P2 : Player

/-- The numeric cell value of a player. -/
def Player.toNat : Player → ℕ
  | .P1 => PLAYER_1
  | .P2 => PLAYER_2

/-- Search values extended with the two infinities: the Python code uses
float("-inf") and float("inf") as initial bounds and fold seeds. -/
abbrev EI : Type := WithBot (WithTop ℤ)

/-- A finite integer as an extended value. -/
def iv (z : ℤ) : EI := ((z : WithTop ℤ) : WithBot (WithTop ℤ))

/-- Insert `x` into a list sorted ascending by `key`, after every element
of strictly smaller or equal key met before the insertion point stops;
helper of the stable sort `sortAsc`. -/
def insertAsc (key : ℕ → ℕ) (x : ℕ) : List ℕ → List ℕ
  | [] => [x]
  | y :: ys => if key y < key x then y :: insertAsc key x ys else x :: y :: ys

/-- Stable ascending sort by `key`, the behaviour of Python
`sorted(moves, key=...)`: elements with equal keys keep their original
relative order. -/
def sortAsc (key : ℕ → ℕ) : List ℕ → List ℕ
  | [] => []
  | x :: xs => insertAsc key x (sortAsc key xs)

/-- minimax.py `_order_moves`: stable sort of the legal columns by
ascending distance from the center column. -/
def _order_moves (moves : List ℕ) : List ℕ :=
  sortAsc (fun col => ((col : ℤ) - (COLS / 2 : ℕ)).natAbs) moves

/-- Number of empty cells of the board; the measure that bounds the
depth of the `minimax` recursion. -/
def emptyCount (b : Board) : ℕ :=
  ((Finset.range ROWS ×ˢ Finset.range COLS).filter (fun rc => b rc.1 rc.2 = EMPTY)).card

/-- Maximizing-ply move loop of minimax.py `minimax` with alpha-beta
pruning: `evalA child alpha beta` evaluates a child with the current
bounds, `mk col` builds the child board, `acc` is the running maximum
(`max_eval`, seeded with -inf).  Returns the value and the number of
nodes expanded inside the loop, or `none` if a child evaluation ran out
of fuel. -/
def abMaxLoop (evalA : Board → EI → EI → Option (EI × ℕ)) (mk : ℕ → Board) :
    List ℕ → EI → EI → EI → Option (EI × ℕ)
  | [], _, _, acc => some (acc, 0)
  | col :: rest, alpha, beta, acc =>
    match evalA (mk col) alpha beta with
    | none => none
    | some (v, n) =>
      let acc' := max acc v
      let alpha' := max alpha v
      if beta ≤ alpha' then some (acc', n)
      else match abMaxLoop evalA mk rest alpha' beta acc' with
        | none => none
        | some (v2, n2) => some (v2, n + n2)

/-- Minimizing-ply move loop of minimax.py `minimax` with alpha-beta
pruning, the symmetric counterpart of `abMaxLoop` (`acc` is `min_eval`,
seeded with +inf). -/
def abMinLoop (evalA : Board → EI → EI → Option (EI × ℕ)) (mk : ℕ → Board) :
    List ℕ → EI → EI → EI → Option (EI × ℕ)
  | [], _, _, acc => some (acc, 0)
  | col :: rest, alpha, beta, acc =>
    match evalA (mk col) alpha beta with
    | none => none
    | some (v, n) =>
      let acc' := min acc v
      let beta' := min beta v
      if beta' ≤ alpha then some (acc', n)
      else match abMinLoop evalA mk rest alpha beta' acc' with
        | none => none
        | some (v2, n2) => some (v2, n + n2)

/-- minimax.py `minimax`, with explicit fuel: the recursion of the source
is bounded by the number of empty cells, not by the depth budget (which
may be negative), so the fuel makes the recursion structural; `none`
means the fuel ran out.  `emptyCount b + 1` fuel is proved sufficient
below.  Returns the minimax value of the board together with the number
of `minimax` calls performed (the node counter `stats["nodes_expanded"]`
of the source, threaded as a return value). -/
def minimaxGo (ai_player : Player) : ℕ → Board → ℤ → Bool → EI → EI → Option (EI × ℕ)
  | 0, _, _, _, _, _ => none
  | fuel + 1, b, depth, maximizing, alpha, beta =>
    if is_terminal b then
      some ((match get_winner b with
        | some w => if w = ai_player.toNat then iv (1000 + depth) else iv (-1000 - depth)
        | none => iv 0), 1)
    else if depth = 0 then
      some (iv (heuristic_evaluate b ai_player.toNat), 1)
    else
      let moves := _order_moves (get_legal_moves b)
      if maximizing then
        (abMaxLoop (fun c a bb => minimaxGo ai_player fuel c (depth - 1) false a bb)
            (fun (col : ℕ) => (make_move b (col : ℤ) ai_player.toNat).getD b)
            moves alpha beta ⊥).map (fun p => (p.1, p.2 + 1))
      else
        (abMinLoop (fun c a bb => minimaxGo ai_player fuel c (depth - 1) true a bb)
            (fun (col : ℕ) => (make_move b (col : ℤ) (get_opponent ai_player.toNat)).getD b)
            moves alpha beta ⊤).map (fun p => (p.1, p.2 + 1))

/-- minimax.py `minimax`: the fuel-free function, with the sufficient
fuel `emptyCount b + 1` supplied.  First component: minimax value;
second component: nodes expanded. -/
def minimax (b : Board) (depth : ℤ) (maximizing : Bool) (ai_player : Player)
    (alpha beta : EI) : EI × ℕ :=
  (minimaxGo ai_player (emptyCount b + 1) b depth maximizing alpha beta).getD (iv 0, 0)

/-- Root loop of minimax.py `get_best_move`: iterate over the ordered
legal columns, searching each child at `max_depth - 1` from a minimizing
ply with full bounds, keeping the first column whose value strictly
improves on the best seen (`best_score`, seeded with -inf), and summing
the nodes expanded. -/
def bestLoop (b : Board) (ai_player : Player) (max_depth : ℤ) :
    List ℕ → EI → ℕ → ℕ → ℕ × ℕ
  | [], _, best_col, nodes => (best_col, nodes)
  | col :: rest, best_score, best_col, nodes =>
    let child := (make_move b (col : ℤ) ai_player.toNat).getD b
    let r := minimax child (max_depth - 1) false ai_player ⊥ ⊤
    if best_score < r.1 then bestLoop b ai_player max_depth rest r.1 col (nodes + r.2)
    else bestLoop b ai_player max_depth rest best_score best_col (nodes + r.2)

/-- minimax.py `get_best_move`: `none` where the Python code would fail
on an empty legal-move list (`legal_moves[0]` raises); otherwise the
chosen column and the total node count. -/
def get_best_move (b : Board) (ai_player : Player) (max_depth : ℤ) : Option (ℕ × ℕ) :=
  match _order_moves (get_legal_moves b) with
  | [] => none
  | m0 :: ms => some (bestLoop b ai_player max_depth (m0 :: ms) ⊥ m0 0)

/-- Modelled from the spec: maximizing-ply move loop of the unpruned
full minimax search that claim C1 compares the pruned search against —
the loop of minimax.py `minimax` with the alpha-beta bookkeeping and the
cutoff removed. -/
def plainMaxLoop (evalP : Board → Option (EI × ℕ)) (mk : ℕ → Board) :
    List ℕ → EI → Option (EI × ℕ)
  | [], acc => some (acc, 0)
  | col :: rest, acc =>
    match evalP (mk col) with
    | none => none
    | some (v, n) =>
      match plainMaxLoop evalP mk rest (max acc v) with
      | none => none
      | some (v2, n2) => some (v2, n + n2)

/-- Modelled from the spec: minimizing-ply move loop of the unpruned
full minimax search, the symmetric counterpart of `plainMaxLoop`. -/
def plainMinLoop (evalP : Board → Option (EI × ℕ)) (mk : ℕ → Board) :
    List ℕ → EI → Option (EI × ℕ)
  | [], acc => some (acc, 0)
  | col :: rest, acc =>
    match evalP (mk col) with
    | none => none
    | some (v, n) =>
      match plainMinLoop evalP mk rest (min acc v) with
      | none => none
      | some (v2, n2) => some (v2, n + n2)

/-- Modelled from the spec: the unpruned full minimax search at the same
depth of claim C1 - identical to `minimaxGo` except that no alpha-beta
bounds are carried and no branch is ever cut. -/
def minimaxPlainGo (ai_player : Player) : ℕ → Board → ℤ → Bool → Option (EI × ℕ)
  | 0, _, _, _ => none
  | fuel + 1, b, depth, maximizing =>
    if is_terminal b then
      some ((match get_winner b with
        | some w => if w = ai_player.toNat then iv (1000 + depth) else iv (-1000 - depth)
        | none => iv 0), 1)
    else if depth = 0 then
      some (iv (heuristic_evaluate b ai_player.toNat), 1)
    else
      let moves := _order_moves (get_legal_moves b)
      if maximizing then
        (plainMaxLoop (fun c => minimaxPlainGo ai_player fuel c (depth - 1) false)
            (fun (col : ℕ) => (make_move b (col : ℤ) ai_player.toNat).getD b)
            moves ⊥).map (fun p => (p.1, p.2 + 1))
      else
        (plainMinLoop (fun c => minimaxPlainGo ai_player fuel c (depth - 1) true)
            (fun (col : ℕ) => (make_move b (col : ℤ) (get_opponent ai_player.toNat)).getD b)
            moves ⊤).map (fun p => (p.1, p.2 + 1))

/-- Modelled from the spec: the unpruned full minimax search, fuel-free. -/
def minimax_noprune (b : Board) (depth : ℤ) (maximizing : Bool) (ai_player : Player) : EI × ℕ :=
  (minimaxPlainGo ai_player (emptyCount b + 1) b depth maximizing).getD (iv 0, 0)

/-- Modelled from the spec: root loop of the unpruned best-move driver,
identical to `bestLoop` but searching each child with the unpruned
search. -/
def bestLoopNP (b : Board) (ai_player : Player) (max_depth : ℤ) :
    List ℕ → EI → ℕ → ℕ → ℕ × ℕ
  | [], _, best_col, nodes => (best_col, nodes)
  | col :: rest, best_score, best_col, nodes =>
    let child := (make_move b (col : ℤ) ai_player.toNat).getD b
    let r := minimax_noprune child (max_depth - 1) false ai_player
    if best_score < r.1 then bestLoopNP b ai_player max_depth rest r.1 col (nodes + r.2)
    else bestLoopNP b ai_player max_depth rest best_score best_col (nodes + r.2)

/-- Modelled from the spec: the best-move driver running the unpruned
full minimax search on every root child. -/
def get_best_move_noprune (b : Board) (ai_player : Player) (max_depth : ℤ) : Option (ℕ × ℕ) :=
  match _order_moves (get_legal_moves b) with
  | [] => none
  | m0 :: ms => some (bestLoopNP b ai_player max_depth (m0 :: ms) ⊥ m0 0)

/-- Value that `get_best_move` computes for a root move `col`: the child
board after the AI takes `col`, searched at `max_depth - 1` from a
minimizing ply with bounds (-inf, +inf). -/
def rootVal (b : Board) (ai_player : Player) (max_depth : ℤ) (col : ℕ) : EI :=
  (minimax ((make_move b (col : ℤ) ai_player.toNat).getD b)
    (max_depth - 1) false ai_player ⊥ ⊤).1

/-- Nodes expanded while `get_best_move` searches the root move `col`. -/
def rootNodes (b : Board) (ai_player : Player) (max_depth : ℤ) (col : ℕ) : ℕ :=
  (minimax ((make_move b (col : ℤ) ai_player.toNat).getD b)
    (max_depth - 1) false ai_player ⊥ ⊤).2

/-- Value of a root move under the unpruned search. -/
def rootValNP (b : Board) (ai_player : Player) (max_depth : ℤ) (col : ℕ) : EI :=
  (minimax_noprune ((make_move b (col : ℤ) ai_player.toNat).getD b)
    (max_depth - 1) false ai_player).1

/-- Nodes expanded for a root move under the unpruned search. -/
def rootNodesNP (b : Board) (ai_player : Player) (max_depth : ℤ) (col : ℕ) : ℕ :=
  (minimax_noprune ((make_move b (col : ℤ) ai_player.toNat).getD b)
    (max_depth - 1) false ai_player).2

/-- Modelled from the spec: score of one window per the exact case list
of claim C3 (+100, +10, +5, -8, -4, otherwise 0, the cases read top to
bottom). -/
def claimWindowScore (window : List ℕ) (ai_player opponent : ℕ) : ℤ :=
  let ai_count := window.countP (· == ai_player)
  let opp_count := window.countP (· == opponent)
  let empty_count := window.countP (· == EMPTY)
  if ai_count = 4 then 100
  else if ai_count = 3 ∧ empty_count = 1 then 10
  else if ai_count = 2 ∧ empty_count = 2 then 5
  else if opp_count = 3 ∧ empty_count = 1 then -8
  else if opp_count = 2 ∧ empty_count = 2 then -4
  else 0

/-- A 4-cell window read from start cell (row, col) along the direction
(dr, dc) of unit steps down and right; used by the spec-side scanners. -/
def windowLine (b : Board) (row col dr dc : ℕ) : List ℕ :=
  (List.range WIN_LENGTH).map fun i => b (row + dr * i) (col + dc * i)

/-- A 4-cell window going up-right from start cell (row, col); used by
the spec-side scanners for the negatively sloped family. -/
def windowLineUp (b : Board) (row col : ℕ) : List ℕ :=
  (List.range WIN_LENGTH).map fun i => b (row - i) (col + i)

/-- Owner of an all-one-player window, per the spec wording of the
winner contract (player 1 checked before player 2; a window can be all
one player for at most one player). -/
def specWindowOwner (window : List ℕ) : Option ℕ :=
  if window.all (· == PLAYER_1) then some PLAYER_1
  else if window.all (· == PLAYER_2) then some PLAYER_2
  else none

/-- Modelled from the spec: the window scan order that claim C5
literally asserts - row-major for the horizontal family, COLUMN-major
for the vertical family (outer loop over columns), then the two diagonal
families scanned top-left to bottom-right. -/
def claimOrderedWindows (b : Board) : List (List ℕ) :=
  ((List.range ROWS).flatMap fun r => (List.range (COLS - 3)).map fun c =>
      windowLine b r c 0 1)
  ++ ((List.range COLS).flatMap fun c => (List.range (ROWS - 3)).map fun r =>
      windowLine b r c 1 0)
  ++ ((List.range (ROWS - 3)).flatMap fun r => (List.range (COLS - 3)).map fun c =>
      windowLine b r c 1 1)
  ++ ((List.range' 3 (ROWS - 3)).flatMap fun r => (List.range (COLS - 3)).map fun c =>
      windowLineUp b r c)

/-- Modelled from the spec (as amended): the same scanner with the
vertical family enumerated row-major (outer loop over start rows), the
order the code actually uses. -/
def amendedOrderedWindows (b : Board) : List (List ℕ) :=
  ((List.range ROWS).flatMap fun r => (List.range (COLS - 3)).map fun c =>
      windowLine b r c 0 1)
  ++ ((List.range (ROWS - 3)).flatMap fun r => (List.range COLS).map fun c =>
      windowLine b r c 1 0)
  ++ ((List.range (ROWS - 3)).flatMap fun r => (List.range (COLS - 3)).map fun c =>
      windowLine b r c 1 1)
  ++ ((List.range' 3 (ROWS - 3)).flatMap fun r => (List.range (COLS - 3)).map fun c =>
      windowLineUp b r c)

/-- Modelled from the spec: the total heuristic of claim C3 - +6 per
perspective-player piece in the single middle column, plus the sum of
`claimWindowScore` over every 4-cell window in all four directions (the
full-board window list `amendedOrderedWindows`; a sum does not depend on
the enumeration order). -/
def claimHeuristic (b : Board) (perspective : ℕ) : ℤ :=
  6 * (((List.range ROWS).filter (fun r => b r (COLS / 2) == perspective)).length : ℤ)
  + ((amendedOrderedWindows b).map
      (fun w => claimWindowScore w perspective (get_opponent perspective))).sum

/-- Modelled from the spec: the winner function claim C5 describes - the
owner of the first all-one-player window under the claimed scan order
(column-major vertical family). -/
def winner_claimed (b : Board) : Option ℕ :=
  (claimOrderedWindows b).findSome? specWindowOwner

/-- Modelled from the spec (as amended): the winner function with the
vertical family scanned row-major. -/
def winner_amended (b : Board) : Option ℕ :=
  (amendedOrderedWindows b).findSome? specWindowOwner

/-- Concrete board refuting the vertical scan order of claim C5:
column 0 holds a player-2 vertical four on rows 1-4, column 1 a player-1
vertical four on rows 0-3, nothing else.  Scanning vertical windows
row-major (the code) meets the player-1 window first; scanning them
column-major (the claim) meets the player-2 window first. -/
def scanOrderBoard : Board := fun r c =>
  if c = 0 ∧ 1 ≤ r ∧ r ≤ 4 then PLAYER_2
  else if c = 1 ∧ r ≤ 3 then PLAYER_1
  else EMPTY

/-- Concrete full board with no winner (a drawn terminal position); row
pattern blocks of the two players chosen so that no 4-in-a-row exists in
any direction. -/
def drawnBoard : Board := fun r c =>
  if ((if r = 1 ∨ r = 2 ∨ r = 5 then 1 else 0) + c) % 2 = 0 then PLAYER_1 else PLAYER_2

/-- The drawn board with its top-left cell emptied: exactly one legal
move, no winner. -/
def almostFullBoard : Board := fun r c =>
  if r = 0 ∧ c = 0 then EMPTY else drawnBoard r c

/-- Concrete board where player 1 has already won: a vertical four in
column 0, rows 2-5. -/
def wonBoard : Board := fun r c =>
  if c = 0 ∧ 2 ≤ r ∧ r ≤ 5 then PLAYER_1 else EMPTY

/-! Helper lemmas about the extended value type. -/

/-- Finite extended values compare like their integers (strict). -/
theorem iv_lt_iv {a b : ℤ} : iv a < iv b ↔ a < b := by
  rw [iv, iv, WithBot.coe_lt_coe, WithTop.coe_lt_coe]

/-- Finite extended values compare like their integers. -/
theorem iv_le_iv {a b : ℤ} : iv a ≤ iv b ↔ a ≤ b := by
  rw [iv, iv, WithBot.coe_le_coe, WithTop.coe_le_coe]

/-- Bottom is below every finite value. -/
theorem bot_lt_iv (a : ℤ) : (⊥ : EI) < iv a := WithBot.bot_lt_coe _

/-- Every finite value is below top. -/
theorem iv_lt_top (a : ℤ) : iv a < (⊤ : EI) := by
  rw [iv, ← WithBot.coe_top, WithBot.coe_lt_coe]
  exact WithTop.coe_lt_top a

/-- A finite value is never at most bottom. -/
theorem not_iv_le_bot (a : ℤ) : ¬ iv a ≤ (⊥ : EI) := (bot_lt_iv a).not_le

/-- Top is never at most a finite value. -/
theorem not_top_le_iv (a : ℤ) : ¬ (⊤ : EI) ≤ iv a := (iv_lt_top a).not_le

/-- Maximum of finite values is finite. -/
theorem max_iv (a b : ℤ) : max (iv a) (iv b) = iv (max a b) := by
  simp [iv, WithBot.coe_max, WithTop.coe_max]

/-- Minimum of finite values is finite. -/
theorem min_iv (a b : ℤ) : min (iv a) (iv b) = iv (min a b) := by
  simp [iv, WithBot.coe_min, WithTop.coe_min]

/-- An extended value strictly between the infinities is finite. -/
theorem exists_iv_of_bounds {x : EI} (h1 : ⊥ < x) (h2 : x < ⊤) : ∃ z, x = iv z := by
  obtain ⟨a, ha⟩ := WithBot.ne_bot_iff_exists.mp (ne_of_gt h1)
  have ha2 : (a : EI) < ⊤ := ha ▸ h2
  have hne : a ≠ ⊤ := by
    intro hc
    rw [hc, WithBot.coe_top] at ha2
    exact absurd ha2 (lt_irrefl _)
  obtain ⟨z, hz⟩ := WithTop.ne_top_iff_exists.mp hne
  exact ⟨z, by rw [← ha, ← hz]; rfl⟩

/-! Helper lemmas about lists and the stable sort. -/

/-- Membership in the stable-sort insertion step. -/
theorem mem_insertAsc (key : ℕ → ℕ) (x a : ℕ) (l : List ℕ) :
    a ∈ insertAsc key x l ↔ a = x ∨ a ∈ l := by
  induction l with
  | nil => simp [insertAsc]
  | cons y ys ih =>
    by_cases h : key y < key x <;> simp [insertAsc, h, ih] <;> tauto

/-- Membership is preserved by the stable sort. -/
theorem mem_sortAsc (key : ℕ → ℕ) (a : ℕ) (l : List ℕ) :
    a ∈ sortAsc key l ↔ a ∈ l := by
  induction l with
  | nil => simp [sortAsc]
  | cons y ys ih => simp [sortAsc, mem_insertAsc, ih]

/-- The insertion step grows the length by one. -/
theorem length_insertAsc (key : ℕ → ℕ) (x : ℕ) (l : List ℕ) :
    (insertAsc key x l).length = l.length + 1 := by
  induction l with
  | nil => rfl
  | cons y ys ih =>
    by_cases h : key y < key x <;> simp [insertAsc, h, ih]

/-- The stable sort preserves the length. -/
theorem length_sortAsc (key : ℕ → ℕ) (l : List ℕ) :
    (sortAsc key l).length = l.length := by
  induction l with
  | nil => rfl
  | cons y ys ih => simp [sortAsc, length_insertAsc, ih]

/-- Move ordering preserves membership. -/
theorem mem_order_moves {a : ℕ} {l : List ℕ} : a ∈ _order_moves l ↔ a ∈ l :=
  mem_sortAsc _ a l

/-- Move ordering of a non-empty list is non-empty. -/
theorem order_moves_ne_nil {l : List ℕ} (h : l ≠ []) : _order_moves l ≠ [] := by
  intro hc
  have := length_sortAsc (fun col => ((col : ℤ) - (COLS / 2 : ℕ)).natAbs) l
  rw [_order_moves] at hc
  rw [hc] at this
  exact h (List.length_eq_zero.mp this.symm)

/-- First-hit description of `List.findSome?`: a `some` result comes
from the first element the function does not reject. -/
theorem findSome?_eq_some_iff {α β : Type} (l : List α) (f : α → Option β) (y : β) :
    l.findSome? f = some y ↔
      ∃ l1 x l2, l = l1 ++ x :: l2 ∧ f x = some y ∧ ∀ z ∈ l1, f z = none := by
  induction l with
  | nil => simp [List.findSome?]
  | cons a as ih =>
    rw [List.findSome?_cons]
    constructor
    · intro h
      cases hfa : f a with
      | some v =>
        rw [hfa] at h
        exact ⟨[], a, as, by simp, by simp [hfa, ← h], by simp⟩
      | none =>
        rw [hfa] at h
        obtain ⟨l1, x, l2, hsplit, hx, hpre⟩ := ih.mp h
        exact ⟨a :: l1, x, l2, by simp [hsplit], hx, by
          intro z hz
          rcases List.mem_cons.mp hz with hz | hz
          · exact hz ▸ hfa
          · exact hpre z hz⟩
    · rintro ⟨l1, x, l2, hsplit, hx, hpre⟩
      cases l1 with
      | nil =>
        simp at hsplit
        rw [hsplit.1, hx]
      | cons p ps =>
        simp at hsplit
        have hfa : f a = none := by
          rw [hsplit.1]
          exact hpre p (by simp)
        rw [hfa]
        exact ih.mpr ⟨ps, x, l2, hsplit.2, hx, fun z hz => hpre z (by simp [hz])⟩

/-- A `none` result of `List.findSome?` means every element is rejected. -/
theorem findSome?_eq_none_iff {α β : Type} (l : List α) (f : α → Option β) :
    l.findSome? f = none ↔ ∀ x ∈ l, f x = none := by
  induction l with
  | nil => simp [List.findSome?]
  | cons a as ih =>
    rw [List.findSome?_cons]
    cases hfa : f a with
    | some v =>
      constructor
      · intro hc
        exact absurd hc (by simp)
      · intro hall
        exact absurd (hall a (by simp)) (by simp [hfa])
    | none =>
      rw [ih]
      constructor
      · intro hall z hz
        rcases List.mem_cons.mp hz with h | h
        · exact h ▸ hfa
        · exact hall z h
      · intro hall z hz
        exact hall z (by simp [hz])

/-- The function `List.findSome?` only depends on the function values on the list. -/
theorem findSome?_ext {α β : Type} {l : List α} {f g : α → Option β}
    (h : ∀ x ∈ l, f x = g x) : l.findSome? f = l.findSome? g := by
  induction l with
  | nil => rfl
  | cons a as ih =>
    rw [List.findSome?_cons, List.findSome?_cons, h a (by simp)]
    cases g a with
    | some v => rfl
    | none => exact ih (fun x hx => h x (by simp [hx]))

/-! Helper lemmas about the board operations. -/

/-- Characterization of legal columns. -/
theorem mem_get_legal_moves {b : Board} {col : ℕ} :
    col ∈ get_legal_moves b ↔ col < COLS ∧ b 0 col = EMPTY := by
  simp [get_legal_moves, List.mem_filter, List.mem_range]

/-- The operation `make_move` fails exactly on an out-of-range column or a full
column (claim C4, failure direction). -/
theorem make_move_eq_none_iff (b : Board) (col : ℤ) (p : ℕ) :
    make_move b col p = none ↔ col < 0 ∨ (COLS : ℤ) ≤ col ∨ b 0 col.toNat ≠ EMPTY := by
  rw [make_move]
  by_cases h1 : col < 0 ∨ (COLS : ℤ) ≤ col
  · rw [if_pos h1]
    constructor
    · intro _
      tauto
    · intro _
      rfl
  · rw [if_neg h1]
    by_cases h2 : b 0 col.toNat ≠ EMPTY
    · rw [if_pos h2]
      constructor
      · intro _
        tauto
      · intro _
        rfl
    · rw [if_neg h2]
      constructor
      · intro hc
        exact absurd hc (by simp)
      · intro hc
        push_neg at h1
        rcases hc with h | h | h
        · omega
        · omega
        · exact absurd h h2

/-- Shape of a successful `make_move`: the column is in range, some row
of that column is empty, the move fills the lowest empty row of the
column (every row below it is occupied) and changes nothing else. -/
theorem make_move_some_shape {b : Board} {col : ℤ} {p : ℕ} {b' : Board}
    (h : make_move b col p = some b') :
    0 ≤ col ∧ col.toNat < COLS ∧
    ∃ row, row < ROWS ∧ b row col.toNat = EMPTY ∧
      (∀ r, row < r → r < ROWS → b r col.toNat ≠ EMPTY) ∧
      (∀ r c, b' r c = if r = row ∧ c = col.toNat then p else b r c) := by
  rw [make_move] at h
  by_cases h1 : col < 0 ∨ (COLS : ℤ) ≤ col
  · rw [if_pos h1] at h
    exact absurd h (by simp)
  · rw [if_neg h1] at h
    push_neg at h1
    by_cases h2 : b 0 col.toNat = EMPTY
    · rw [if_neg (not_not_intro h2)] at h
      refine ⟨h1.1, ?_, ?_⟩
      · have h2' := h1.2
        rw [COLS_eq] at h2' ⊢
        omega
      · have hl : (List.range ROWS).reverse = [5, 4, 3, 2, 1, 0] := by rfl
        rw [hl] at h
        have hsome := Option.some_injective _ h
        clear h
        by_cases hb5 : b 5 col.toNat = EMPTY
        · rw [show (List.find? (fun row => b row col.toNat == EMPTY) [5,4,3,2,1,0]) = some 5 by
            simp [List.find?_cons, hb5]] at hsome
          exact ⟨5, by rw [ROWS_eq]; omega, hb5,
            fun r hr1 hr2 => absurd (ROWS_eq ▸ hr2) (by omega),
            fun r c => by rw [← hsome]⟩
        · by_cases hb4 : b 4 col.toNat = EMPTY
          · rw [show (List.find? (fun row => b row col.toNat == EMPTY) [5,4,3,2,1,0]) = some 4 by
              simp [List.find?_cons, hb5, hb4]] at hsome
            refine ⟨4, by rw [ROWS_eq]; omega, hb4, fun r hr1 hr2 => ?_,
              fun r c => by rw [← hsome]⟩
            have : r = 5 := by rw [ROWS_eq] at hr2; omega
            rw [this]; exact hb5
          · by_cases hb3 : b 3 col.toNat = EMPTY
            · rw [show (List.find? (fun row => b row col.toNat == EMPTY) [5,4,3,2,1,0]) = some 3 by
                simp [List.find?_cons, hb5, hb4, hb3]] at hsome
              refine ⟨3, by rw [ROWS_eq]; omega, hb3, fun r hr1 hr2 => ?_,
                fun r c => by rw [← hsome]⟩
              have : r = 4 ∨ r = 5 := by rw [ROWS_eq] at hr2; omega
              rcases this with h | h <;> rw [h] <;> assumption
            · by_cases hb2 : b 2 col.toNat = EMPTY
              · rw [show (List.find? (fun row => b row col.toNat == EMPTY) [5,4,3,2,1,0]) = some 2 by
                  simp [List.find?_cons, hb5, hb4, hb3, hb2]] at hsome
                refine ⟨2, by rw [ROWS_eq]; omega, hb2, fun r hr1 hr2 => ?_,
                  fun r c => by rw [← hsome]⟩
                have : r = 3 ∨ r = 4 ∨ r = 5 := by rw [ROWS_eq] at hr2; omega
                rcases this with h | h | h <;> rw [h] <;> assumption
              · by_cases hb1 : b 1 col.toNat = EMPTY
                · rw [show (List.find? (fun row => b row col.toNat == EMPTY) [5,4,3,2,1,0]) = some 1 by
                    simp [List.find?_cons, hb5, hb4, hb3, hb2, hb1]] at hsome
                  refine ⟨1, by rw [ROWS_eq]; omega, hb1, fun r hr1 hr2 => ?_,
                    fun r c => by rw [← hsome]⟩
                  have : r = 2 ∨ r = 3 ∨ r = 4 ∨ r = 5 := by rw [ROWS_eq] at hr2; omega
                  rcases this with h | h | h | h <;> rw [h] <;> assumption
                · rw [show (List.find? (fun row => b row col.toNat == EMPTY) [5,4,3,2,1,0]) = some 0 by
                    simp [List.find?_cons, hb5, hb4, hb3, hb2, hb1, h2]] at hsome
                  refine ⟨0, by rw [ROWS_eq]; omega, h2, fun r hr1 hr2 => ?_,
                    fun r c => by rw [← hsome]⟩
                  have : r = 1 ∨ r = 2 ∨ r = 3 ∨ r = 4 ∨ r = 5 := by rw [ROWS_eq] at hr2; omega
                  rcases this with h | h | h | h | h <;> rw [h] <;> assumption
    · rw [if_pos h2] at h
      exact absurd h (by simp)

/-- A legal column makes `make_move` succeed. -/
theorem make_move_isSome_of_legal {b : Board} {col : ℕ} (p : ℕ)
    (h : col ∈ get_legal_moves b) : ∃ b', make_move b (col : ℤ) p = some b' := by
  obtain ⟨hlt, hempty⟩ := mem_get_legal_moves.mp h
  cases hmm : make_move b (col : ℤ) p with
  | some b' => exact ⟨b', rfl⟩
  | none =>
    rw [make_move_eq_none_iff] at hmm
    rcases hmm with h1 | h1 | h1
    · omega
    · rw [COLS_eq] at h1 hlt
      omega
    · rw [show ((col : ℤ)).toNat = col from Int.toNat_natCast col] at h1
      exact absurd hempty h1

/-- Dropping a real piece strictly decreases the number of empty
cells: the measure of the `minimax` recursion. -/
theorem emptyCount_make_move_lt {b : Board} {col : ℤ} {p : ℕ} {b' : Board}
    (h : make_move b col p = some b') (hp : p ≠ EMPTY) :
    emptyCount b' < emptyCount b := by
  obtain ⟨h0, hcol, row, hrow, hemp, _, hupd⟩ := make_move_some_shape h
  apply Finset.card_lt_card
  constructor
  · intro rc hm
    rw [Finset.mem_filter] at hm ⊢
    refine ⟨hm.1, ?_⟩
    have hb' := hupd rc.1 rc.2
    by_cases hc : rc.1 = row ∧ rc.2 = col.toNat
    · rw [if_pos hc] at hb'
      exact absurd (hb' ▸ hm.2) hp
    · rw [if_neg hc] at hb'
      exact hb' ▸ hm.2
  · intro hsub
    have hmem : (row, col.toNat) ∈ (Finset.range ROWS ×ˢ Finset.range COLS).filter
        (fun rc => b rc.1 rc.2 = EMPTY) := by
      rw [Finset.mem_filter, Finset.mem_product, Finset.mem_range, Finset.mem_range]
      exact ⟨⟨hrow, hcol⟩, hemp⟩
    have := hsub hmem
    rw [Finset.mem_filter] at this
    have hb' := hupd row col.toNat
    rw [if_pos ⟨rfl, rfl⟩] at hb'
    exact hp (hb' ▸ this.2)

/-- The child board used inside the search loops has strictly fewer
empty cells. -/
theorem emptyCount_child_lt {b : Board} {col : ℕ} {p : ℕ}
    (h : col ∈ get_legal_moves b) (hp : p ≠ EMPTY) :
    emptyCount ((make_move b (col : ℤ) p).getD b) < emptyCount b := by
  obtain ⟨b', hb'⟩ := make_move_isSome_of_legal p h
  rw [hb', Option.getD_some]
  exact emptyCount_make_move_lt hb' hp

/-- A non-terminal board has a legal move. -/
theorem legal_ne_nil_of_not_terminal {b : Board} (h : is_terminal b = false) :
    get_legal_moves b ≠ [] := by
  intro hc
  rw [is_terminal, hc] at h
  simp at h

/-- A board with no legal move is terminal (half of the reasoning of
claim C10). -/
theorem terminal_of_legal_nil {b : Board} (h : get_legal_moves b = []) :
    is_terminal b = true := by
  rw [is_terminal, h]
  simp

/-- Players drop non-empty cell values. -/
theorem player_toNat_ne_empty (ai : Player) : ai.toNat ≠ EMPTY := by
  cases ai <;> simp [Player.toNat, PLAYER_1, PLAYER_2, EMPTY]

/-- The opponent's cell value is non-empty as well. -/
theorem opponent_toNat_ne_empty (ai : Player) : get_opponent ai.toNat ≠ EMPTY := by
  cases ai <;> simp [Player.toNat, get_opponent, PLAYER_1, PLAYER_2, EMPTY]

/-- The gravity invariant of the spec: in every column, a non-empty
cell (other than the bottom row) sits on top of a non-empty cell, so the
occupied cells of a column are contiguous from the bottom upward. -/
def gravity (b : Board) : Prop :=
  ∀ c, c < COLS → ∀ r, r < ROWS - 1 → b r c ≠ EMPTY → b (r + 1) c ≠ EMPTY

/-- On a terminal board `minimax` returns one node and the ranked
terminal value of the source. -/
theorem minimax_of_terminal {b : Board} (hterm : is_terminal b = true)
    (depth : ℤ) (maximizing : Bool) (ai : Player) (alpha beta : EI) :
    minimax b depth maximizing ai alpha beta =
      ((match get_winner b with
        | some w => if w = ai.toNat then iv (1000 + depth) else iv (-1000 - depth)
        | none => iv 0), 1) := by
  simp [minimax, minimaxGo, hterm]

/-- The two players have different cell values. -/
theorem opponent_toNat_ne (ai : Player) : get_opponent ai.toNat ≠ ai.toNat := by
  cases ai <;> simp [Player.toNat, get_opponent, PLAYER_1, PLAYER_2]

/-- C2: on a terminal board, for any remaining depth budget, `minimax`
returns 1000 + depth when the winner is the AI player, -1000 - depth
when the winner is the opponent, and exactly 0 when the board has no
winner (a drawn, full board), so faster wins and slower losses score
higher. -/
theorem minimax_terminal_scoring (b : Board) (depth : ℤ) (maximizing : Bool)
    (ai : Player) (alpha beta : EI) (hterm : is_terminal b = true) :
    (get_winner b = some ai.toNat →
      minimax b depth maximizing ai alpha beta = (iv (1000 + depth), 1)) ∧
    (get_winner b = some (get_opponent ai.toNat) →
      minimax b depth maximizing ai alpha beta = (iv (-1000 - depth), 1)) ∧
    (get_winner b = none →
      minimax b depth maximizing ai alpha beta = (iv 0, 1)) := by
  refine ⟨?_, ?_, ?_⟩ <;> intro hw <;>
    rw [minimax_of_terminal hterm depth maximizing ai alpha beta] <;> rw [hw]
  · simp
  · simp [opponent_toNat_ne ai]

/-- Witness for C2 at a concrete input: a board with a player-1 vertical
four is terminal, and `minimax` for the AI player 1 at depth budget 5
values it 1000 + 5 in a single node. -/
theorem minimax_terminal_scoring_witness :
    is_terminal wonBoard = true ∧
    get_winner wonBoard = some Player.P1.toNat ∧
    minimax wonBoard 5 true Player.P1 ⊥ ⊤ = (iv 1005, 1) :=
  ⟨by decide, by decide,
    (minimax_terminal_scoring wonBoard 5 true Player.P1 ⊥ ⊤ (by decide)).1 (by decide)⟩

/-- C4: `make_move` fails exactly when the column index is outside
[0, COLS) or the column's top cell is occupied; on success the returned
board equals the input board except that the player's piece now occupies
the lowest empty cell of the chosen column (the embedding is a pure
function, so the input board value is unmodified in both cases). -/
theorem make_move_contract (b : Board) (col : ℤ) (p : ℕ) :
    (make_move b col p = none ↔ col < 0 ∨ (COLS : ℤ) ≤ col ∨ b 0 col.toNat ≠ EMPTY) ∧
    ∀ b', make_move b col p = some b' →
      ∃ row, row < ROWS ∧ b row col.toNat = EMPTY ∧
        (∀ r, row < r → r < ROWS → b r col.toNat ≠ EMPTY) ∧
        (∀ r c, b' r c = if r = row ∧ c = col.toNat then p else b r c) :=
  ⟨make_move_eq_none_iff b col p, fun _ h => (make_move_some_shape h).2.2⟩

/-- Witness for C4 at a concrete input: dropping a player-1 piece into
column 3 of the empty board succeeds and fills exactly the bottom cell
of column 3; and the out-of-range column 9 fails. -/
theorem make_move_contract_witness :
    (make_move create_board 9 1 = none) ∧
    ∃ row, row < ROWS ∧ create_board row ((3 : ℤ)).toNat = EMPTY ∧
      (∀ r, row < r → r < ROWS → create_board r ((3 : ℤ)).toNat ≠ EMPTY) ∧
      (∀ r c, ((make_move create_board 3 1).getD create_board) r c =
        if r = row ∧ c = ((3 : ℤ)).toNat then 1 else create_board r c) :=
  ⟨(make_move_contract create_board 9 1).1.mpr (by right; left; decide),
    (make_move_contract create_board 3 1).2 _ rfl⟩

/-- C6: a successful `make_move` preserves the gravity invariant. -/
theorem make_move_preserves_gravity {b : Board} {col : ℤ} {p : ℕ} {b' : Board}
    (hg : gravity b) (h : make_move b col p = some b') : gravity b' := by
  obtain ⟨-, -, row, hrow, hemp, hbelow, hupd⟩ := make_move_some_shape h
  intro c hc r hr hne
  rw [hupd] at hne
  rw [hupd]
  by_cases hrc : r = row ∧ c = col.toNat
  · have hne2 : ¬ (r + 1 = row ∧ c = col.toNat) := by
      intro hcc
      omega
    rw [if_neg hne2]
    rw [hrc.2]
    refine hbelow (r + 1) (by omega) ?_
    rw [ROWS_eq] at hr ⊢
    omega
  · rw [if_neg hrc] at hne
    have hb := hg c hc r hr hne
    by_cases hrc2 : r + 1 = row ∧ c = col.toNat
    · rw [hrc2.1, hrc2.2] at hb
      exact absurd hemp hb
    · rw [if_neg hrc2]
      exact hb

/-- Witness for C6 at a concrete input: the empty board satisfies
gravity and so does the board after dropping a piece into column 2. -/
theorem make_move_preserves_gravity_witness :
    gravity create_board ∧ gravity ((make_move create_board 2 1).getD create_board) :=
  ⟨by unfold gravity; decide,
    @make_move_preserves_gravity create_board 2 1
      ((make_move create_board 2 1).getD create_board)
      (by unfold gravity; decide) rfl⟩

/-- C9: `utility` is a total function of an arbitrary board (terminal
or not, and it can raise nothing since it is typed as a plain function):
+1 when the given perspective player is the winner, -1 when any other
player is the winner, 0 when no winner exists. -/
theorem utility_total (b : Board) (p : ℕ) :
    (get_winner b = some p → utility b p = 1) ∧
    (∀ w, get_winner b = some w → w ≠ p → utility b p = -1) ∧
    (get_winner b = none → utility b p = 0) := by
  refine ⟨?_, ?_, ?_⟩
  · intro hw
    simp [utility, hw]
  · intro w hw hne
    simp [utility, hw, hne]
  · intro hw
    simp [utility, hw]

/-- Witness for C9 at concrete inputs: the empty board is non-terminal
and still gets utility 0, and the board won by player 1 gets utility -1
from player 2's perspective. -/
theorem utility_total_witness :
    is_terminal create_board = false ∧
    utility create_board 1 = 0 ∧ utility wonBoard 2 = -1 :=
  ⟨by decide, (utility_total create_board 1).2.2 (by decide),
    (utility_total wonBoard 2).2.1 1 (by decide) (by decide)⟩

/-- C8: on the empty board at maxDepth 1, for either AI identity,
`get_best_move` returns the center column COLS / 2 = 3, and the center
child is the strict best root child (its +6 center bonus dominates while
every window score is 0). -/
theorem best_move_empty_depth1 :
    ∀ ai : Player, (get_best_move create_board ai 1).map Prod.fst = some (COLS / 2) ∧
      ∀ c, c < COLS → c ≠ COLS / 2 →
        rootVal create_board ai 1 c < rootVal create_board ai 1 (COLS / 2) := by
  intro ai
  cases ai
  · exact ⟨by decide, by decide⟩
  · exact ⟨by decide, by decide⟩

/-- Witness for C8 at a concrete input: player 2 as the AI, with the
strictness instantiated at column 2. -/
theorem best_move_empty_depth1_witness :
    (get_best_move create_board Player.P2 1).map Prod.fst = some (COLS / 2) ∧
    rootVal create_board Player.P2 1 2 < rootVal create_board Player.P2 1 (COLS / 2) :=
  ⟨(best_move_empty_depth1 Player.P2).1,
    (best_move_empty_depth1 Player.P2).2 2 (by decide) (by decide)⟩

/-- The code's window list coincides with the spec-side window list of
the amended scan order (vertical family row-major). -/
theorem allWindows_eq_amended (b : Board) : allWindows b = amendedOrderedWindows b := by
  rw [allWindows, amendedOrderedWindows, horizWindows, vertWindows, diagPosWindows,
    diagNegWindows]
  simp [windowLine, windowLineUp, ROWS, COLS, WIN_LENGTH]

/-- The per-window check of the code agrees with the spec-side owner
function. -/
theorem windowHit_eq_specWindowOwner (w : List ℕ) : windowHit w = specWindowOwner w := rfl

/-- The winner scan `get_winner` is the first-hit scan over the amended window order. -/
theorem get_winner_eq_winner_amended (b : Board) : get_winner b = winner_amended b := by
  rw [get_winner, winner_amended, allWindows_eq_amended]
  exact findSome?_ext (fun x _ => rfl)

/-- C5 counterexample: on the board with a player-2 vertical four in
column 0 (rows 1-4) and a player-1 vertical four in column 1 (rows 0-3),
the code (row-major vertical scan) returns player 1 while the claimed
column-major vertical scan returns player 2, so the claimed scan order
is not the one implemented. -/
theorem get_winner_scan_order_cex :
    get_winner scanOrderBoard = some PLAYER_1 ∧
    winner_claimed scanOrderBoard = some PLAYER_2 ∧
    get_winner scanOrderBoard ≠ winner_claimed scanOrderBoard :=
  ⟨by decide, by decide, by decide⟩

/-- C5 as amended: `get_winner` examines every 4-cell window in all four
directions and returns the owner of the first all-one-player window under
the deterministic scan order with the vertical family enumerated
row-major like the other families (horizontal first, then vertical, then
the two diagonal families, each family scanned with rows outer and
columns inner); it returns `none` exactly when no such window exists.
The first two conjuncts characterize the result as the first hit of that
scan; the last four state that the scanned list covers every window of
the four families. -/
theorem get_winner_first_hit_amended (b : Board) :
    (∀ p, get_winner b = some p ↔
      ∃ pre w post, amendedOrderedWindows b = pre ++ w :: post ∧
        specWindowOwner w = some p ∧ ∀ w2 ∈ pre, specWindowOwner w2 = none) ∧
    (get_winner b = none ↔ ∀ w ∈ amendedOrderedWindows b, specWindowOwner w = none) ∧
    (∀ r c, r < ROWS → c + WIN_LENGTH ≤ COLS →
      windowLine b r c 0 1 ∈ amendedOrderedWindows b) ∧
    (∀ r c, r + WIN_LENGTH ≤ ROWS → c < COLS →
      windowLine b r c 1 0 ∈ amendedOrderedWindows b) ∧
    (∀ r c, r + WIN_LENGTH ≤ ROWS → c + WIN_LENGTH ≤ COLS →
      windowLine b r c 1 1 ∈ amendedOrderedWindows b) ∧
    (∀ r c, WIN_LENGTH - 1 ≤ r → r < ROWS → c + WIN_LENGTH ≤ COLS →
      windowLineUp b r c ∈ amendedOrderedWindows b) := by
  rw [get_winner_eq_winner_amended, winner_amended]
  refine ⟨fun p => findSome?_eq_some_iff _ _ p, findSome?_eq_none_iff _ _, ?_, ?_, ?_, ?_⟩
  · intro r c hr hc
    rw [amendedOrderedWindows]
    simp only [List.mem_append, List.mem_flatMap, List.mem_range]
    refine Or.inl (Or.inl (Or.inl ⟨r, hr, ?_⟩))
    simp only [List.mem_map, List.mem_range]
    exact ⟨c, by rw [COLS_eq] at hc ⊢; rw [WIN_LENGTH] at hc; omega, rfl⟩
  · intro r c hr hc
    rw [amendedOrderedWindows]
    simp only [List.mem_append, List.mem_flatMap, List.mem_range]
    refine Or.inl (Or.inl (Or.inr ⟨r, ?_, ?_⟩))
    · rw [ROWS_eq] at hr ⊢
      rw [WIN_LENGTH] at hr
      omega
    · simp only [List.mem_map, List.mem_range]
      exact ⟨c, hc, rfl⟩
  · intro r c hr hc
    rw [amendedOrderedWindows]
    simp only [List.mem_append, List.mem_flatMap, List.mem_range]
    refine Or.inl (Or.inr ⟨r, ?_, ?_⟩)
    · rw [ROWS_eq] at hr ⊢
      rw [WIN_LENGTH] at hr
      omega
    · simp only [List.mem_map, List.mem_range]
      exact ⟨c, by rw [COLS_eq] at hc ⊢; rw [WIN_LENGTH] at hc; omega, rfl⟩
  · intro r c hr1 hr2 hc
    rw [amendedOrderedWindows]
    simp only [List.mem_append, List.mem_flatMap]
    refine Or.inr ⟨r, ?_, ?_⟩
    · rw [List.mem_range']
      rw [ROWS_eq] at hr2 ⊢
      rw [WIN_LENGTH] at hr1
      exact ⟨r - 3, by omega, by omega⟩
    · simp only [List.mem_map, List.mem_range]
      exact ⟨c, by rw [COLS_eq] at hc ⊢; rw [WIN_LENGTH] at hc; omega, rfl⟩

/-- Witness for C5-as-amended at a concrete input: on the won board the
first-hit decomposition exists for player 1, and the vertical window at
start cell (2, 0) is among the scanned windows. -/
theorem get_winner_first_hit_amended_witness :
    (∃ pre w post, amendedOrderedWindows wonBoard = pre ++ w :: post ∧
      specWindowOwner w = some PLAYER_1 ∧ ∀ w2 ∈ pre, specWindowOwner w2 = none) ∧
    windowLine wonBoard 2 0 1 0 ∈ amendedOrderedWindows wonBoard :=
  ⟨((get_winner_first_hit_amended wonBoard).1 PLAYER_1).mp (by decide),
    (get_winner_first_hit_amended wonBoard).2.2.2.1 2 0 (by decide) (by decide)⟩

/-- Three pairwise exclusive predicates can together hold on at most
every element once. -/
theorem countP_three_le (p q r : ℕ → Bool) (l : List ℕ)
    (h : ∀ x, ¬ (p x = true ∧ q x = true) ∧ ¬ (p x = true ∧ r x = true) ∧
      ¬ (q x = true ∧ r x = true)) :
    l.countP p + l.countP q + l.countP r ≤ l.length := by
  induction l with
  | nil => simp
  | cons a as ih =>
    rw [List.countP_cons, List.countP_cons, List.countP_cons, List.length_cons]
    obtain ⟨h1, h2, h3⟩ := h a
    by_cases hp : p a = true
    · by_cases hq : q a = true
      · exact absurd ⟨hp, hq⟩ h1
      · by_cases hr : r a = true
        · exact absurd ⟨hp, hr⟩ h2
        · simp [hp, hq, hr]
          omega
    · by_cases hq : q a = true
      · by_cases hr : r a = true
        · exact absurd ⟨hq, hr⟩ h3
        · simp [hp, hq, hr]
          omega
      · by_cases hr : r a = true
        · simp [hp, hq, hr]
          omega
        · simp [hp, hq, hr]
          omega

/-- On a 4-cell window, the summed two `if` chains of `_score_window`
coincide with the single case list of claim C3, for a real perspective
player: a chain-1 pattern forces the window to hold no opponent piece,
so the two chains never contribute together. -/
theorem score_window_eq_claim (w : List ℕ) (ai : ℕ)
    (hai : ai = PLAYER_1 ∨ ai = PLAYER_2) (hw : w.length = WIN_LENGTH) :
    _score_window w ai (get_opponent ai) = claimWindowScore w ai (get_opponent ai) := by
  have hle : w.countP (· == ai) + w.countP (· == get_opponent ai) +
      w.countP (· == EMPTY) ≤ w.length := by
    apply countP_three_le
    intro x
    refine ⟨?_, ?_, ?_⟩ <;> rintro ⟨ha, hb⟩ <;> rw [beq_iff_eq] at ha hb <;>
      rcases hai with h | h <;> subst h <;>
      simp [get_opponent, PLAYER_1, PLAYER_2, EMPTY] at ha hb <;> omega
  rw [hw, WIN_LENGTH] at hle
  simp only [_score_window, claimWindowScore]
  split_ifs <;> omega

/-- Every window of the scan list has exactly 4 cells. -/
theorem length_of_mem_allWindows {b : Board} {w : List ℕ} (h : w ∈ allWindows b) :
    w.length = WIN_LENGTH := by
  rw [allWindows, horizWindows, vertWindows, diagPosWindows, diagNegWindows] at h
  simp only [List.mem_append, List.mem_flatMap, List.mem_map, List.mem_range,
    List.mem_range'] at h
  rcases h with (((⟨r, hr, c, hc, hw⟩ | ⟨r, hr, c, hc, hw⟩) | ⟨r, hr, c, hc, hw⟩)
    | ⟨r, hr, c, hc, hw⟩) <;> rw [← hw] <;> simp

/-- C3: for every board and either perspective player, the heuristic
evaluation of the code equals the spec formula - +6 per
perspective-player piece in the middle column plus the claimed window
case values summed over every 4-cell window in all four directions. -/
theorem heuristic_evaluate_claim_formula (b : Board) (perspective : ℕ)
    (h : perspective = PLAYER_1 ∨ perspective = PLAYER_2) :
    heuristic_evaluate b perspective = claimHeuristic b perspective := by
  rw [heuristic_evaluate, claimHeuristic]
  have hmap : (allWindows b).map
      (fun w => _score_window w perspective (get_opponent perspective))
      = (allWindows b).map
        (fun w => claimWindowScore w perspective (get_opponent perspective)) := by
    apply List.map_congr_left
    intro w hwmem
    exact score_window_eq_claim w perspective h (length_of_mem_allWindows hwmem)
  rw [hmap, allWindows_eq_amended]
  ring

/-- Witness for C3 at a concrete input: the full drawn board evaluated
from player 1's perspective; both sides compute to the same number. -/
theorem heuristic_evaluate_claim_formula_witness :
    (PLAYER_1 = PLAYER_1 ∨ PLAYER_1 = PLAYER_2) ∧
    heuristic_evaluate drawnBoard PLAYER_1 = claimHeuristic drawnBoard PLAYER_1 ∧
    heuristic_evaluate scanOrderBoard PLAYER_2 = claimHeuristic scanOrderBoard PLAYER_2 :=
  ⟨Or.inl rfl,
    heuristic_evaluate_claim_formula drawnBoard PLAYER_1 (Or.inl rfl),
    heuristic_evaluate_claim_formula scanOrderBoard PLAYER_2 (Or.inr rfl)⟩

/-- The pruned maximizing loop only depends on the child evaluation
function through its values on the listed children. -/
theorem abMaxLoop_congr {evalA evalA' : Board → EI → EI → Option (EI × ℕ)} {mk : ℕ → Board} :
    ∀ moves : List ℕ,
    (∀ col ∈ moves, ∀ a bb, evalA (mk col) a bb = evalA' (mk col) a bb) →
    ∀ alpha beta acc,
      abMaxLoop evalA mk moves alpha beta acc = abMaxLoop evalA' mk moves alpha beta acc := by
  intro moves
  induction moves with
  | nil => intro _ _ _ _; rfl
  | cons col rest ih =>
    intro h alpha beta acc
    simp only [abMaxLoop]
    rw [h col (by simp)]
    cases evalA' (mk col) alpha beta with
    | none => rfl
    | some p =>
      rcases p with ⟨v, n⟩
      simp only
      rw [ih (fun c hc => h c (List.mem_cons_of_mem _ hc))]

/-- The pruned minimizing loop only depends on the child evaluation
function through its values on the listed children. -/
theorem abMinLoop_congr {evalA evalA' : Board → EI → EI → Option (EI × ℕ)} {mk : ℕ → Board} :
    ∀ moves : List ℕ,
    (∀ col ∈ moves, ∀ a bb, evalA (mk col) a bb = evalA' (mk col) a bb) →
    ∀ alpha beta acc,
      abMinLoop evalA mk moves alpha beta acc = abMinLoop evalA' mk moves alpha beta acc := by
  intro moves
  induction moves with
  | nil => intro _ _ _ _; rfl
  | cons col rest ih =>
    intro h alpha beta acc
    simp only [abMinLoop]
    rw [h col (by simp)]
    cases evalA' (mk col) alpha beta with
    | none => rfl
    | some p =>
      rcases p with ⟨v, n⟩
      simp only
      rw [ih (fun c hc => h c (List.mem_cons_of_mem _ hc))]

/-- The pruned maximizing loop succeeds when every child evaluation
succeeds. -/
theorem abMaxLoop_isSome {evalA : Board → EI → EI → Option (EI × ℕ)} {mk : ℕ → Board} :
    ∀ moves : List ℕ,
    (∀ col ∈ moves, ∀ a bb, (evalA (mk col) a bb).isSome) →
    ∀ alpha beta acc, (abMaxLoop evalA mk moves alpha beta acc).isSome := by
  intro moves
  induction moves with
  | nil => intro _ _ _ _; rfl
  | cons col rest ih =>
    intro h alpha beta acc
    simp only [abMaxLoop]
    obtain ⟨p, hp⟩ := Option.isSome_iff_exists.mp (h col (by simp) alpha beta)
    rw [hp]
    rcases p with ⟨v, n⟩
    simp only
    by_cases hc : beta ≤ max alpha v
    · rw [if_pos hc]
      rfl
    · rw [if_neg hc]
      have hrest := ih (fun c hcm => h c (List.mem_cons_of_mem _ hcm)) (max alpha v) beta (max acc v)
      obtain ⟨q, hq⟩ := Option.isSome_iff_exists.mp hrest
      rw [hq]
      rfl

/-- The pruned minimizing loop succeeds when every child evaluation
succeeds. -/
theorem abMinLoop_isSome {evalA : Board → EI → EI → Option (EI × ℕ)} {mk : ℕ → Board} :
    ∀ moves : List ℕ,
    (∀ col ∈ moves, ∀ a bb, (evalA (mk col) a bb).isSome) →
    ∀ alpha beta acc, (abMinLoop evalA mk moves alpha beta acc).isSome := by
  intro moves
  induction moves with
  | nil => intro _ _ _ _; rfl
  | cons col rest ih =>
    intro h alpha beta acc
    simp only [abMinLoop]
    obtain ⟨p, hp⟩ := Option.isSome_iff_exists.mp (h col (by simp) alpha beta)
    rw [hp]
    rcases p with ⟨v, n⟩
    simp only
    by_cases hc : min beta v ≤ alpha
    · rw [if_pos hc]
      rfl
    · rw [if_neg hc]
      have hrest := ih (fun c hcm => h c (List.mem_cons_of_mem _ hcm)) alpha (min beta v) (min acc v)
      obtain ⟨q, hq⟩ := Option.isSome_iff_exists.mp hrest
      rw [hq]
      rfl

/-- A legal move of the board leaves a child with fewer empty cells than
any given fuel bound strictly above the board's empty count. -/
theorem emptyCount_child_lt_fuel {b : Board} {col : ℕ} {p : ℕ} {fuel : ℕ}
    (h : col ∈ get_legal_moves b) (hp : p ≠ EMPTY) (hfuel : emptyCount b < fuel + 1) :
    emptyCount ((make_move b (col : ℤ) p).getD b) < fuel := by
  have := emptyCount_child_lt h hp
  omega

/-- The result of `minimaxGo` does not depend on the fuel, as long as
the fuel exceeds the number of empty cells. -/
theorem minimaxGo_fuel_irrel (ai : Player) :
    ∀ fuel fuel' b depth maximizing alpha beta,
      emptyCount b < fuel → emptyCount b < fuel' →
      minimaxGo ai fuel b depth maximizing alpha beta =
        minimaxGo ai fuel' b depth maximizing alpha beta := by
  intro fuel
  induction fuel with
  | zero =>
    intro fuel' b _ _ _ _ h _
    omega
  | succ n ih =>
    intro fuel' b depth maximizing alpha beta h h'
    cases fuel' with
    | zero => omega
    | succ n' =>
      simp only [minimaxGo]
      by_cases hterm : is_terminal b = true
      · simp [hterm]
      · simp only [hterm]
        by_cases hd : depth = 0
        · simp [hd]
        · simp only [hd]
          by_cases hmax : maximizing
          · simp only [hmax, Bool.false_eq_true, if_false, if_true]
            apply congrArg
            apply abMaxLoop_congr
            intro col hcol a bb
            exact ih n' _ (depth - 1) false a bb
              (emptyCount_child_lt_fuel (mem_order_moves.mp hcol) (player_toNat_ne_empty ai) h)
              (emptyCount_child_lt_fuel (mem_order_moves.mp hcol) (player_toNat_ne_empty ai) h')
          · simp only [hmax, Bool.false_eq_true, if_false, if_true]
            apply congrArg
            apply abMinLoop_congr
            intro col hcol a bb
            exact ih n' _ (depth - 1) true a bb
              (emptyCount_child_lt_fuel (mem_order_moves.mp hcol) (opponent_toNat_ne_empty ai) h)
              (emptyCount_child_lt_fuel (mem_order_moves.mp hcol) (opponent_toNat_ne_empty ai) h')

/-- The search `minimaxGo` succeeds whenever the fuel exceeds the number of empty
cells: every recursive call is on a child with strictly fewer empty
cells, and a board with no legal moves is terminal. -/
theorem minimaxGo_isSome (ai : Player) :
    ∀ fuel b depth maximizing alpha beta,
      emptyCount b < fuel →
      (minimaxGo ai fuel b depth maximizing alpha beta).isSome := by
  intro fuel
  induction fuel with
  | zero =>
    intro b _ _ _ _ h
    omega
  | succ n ih =>
    intro b depth maximizing alpha beta h
    simp only [minimaxGo]
    by_cases hterm : is_terminal b = true
    · simp [hterm]
    · simp only [hterm]
      by_cases hd : depth = 0
      · simp [hd]
      · simp only [hd]
        by_cases hmax : maximizing
        · simp only [hmax, Bool.false_eq_true, if_false, if_true]
          rw [Option.isSome_map']
          apply abMaxLoop_isSome
          intro col hcol a bb
          exact ih _ (depth - 1) false a bb
            (emptyCount_child_lt_fuel (mem_order_moves.mp hcol) (player_toNat_ne_empty ai) h)
        · simp only [hmax, Bool.false_eq_true, if_false, if_true]
          rw [Option.isSome_map']
          apply abMinLoop_isSome
          intro col hcol a bb
          exact ih _ (depth - 1) true a bb
            (emptyCount_child_lt_fuel (mem_order_moves.mp hcol) (opponent_toNat_ne_empty ai) h)

/-- C10: `minimax` terminates on every board and every integer depth
budget, including non-positive ones: any fuel strictly above the number
of empty cells makes the fueled recursion return, with a value
independent of the fuel (so `minimax`, defined at fuel
`emptyCount b + 1`, is the unique fixed value), because each recursive
call drops to a child board with strictly fewer empty cells and a board
with no legal moves is terminal (second conjunct). -/
theorem minimax_terminates (b : Board) (fuel : ℕ) (depth : ℤ) (maximizing : Bool)
    (ai : Player) (alpha beta : EI) (hfuel : emptyCount b < fuel) :
    minimaxGo ai fuel b depth maximizing alpha beta =
      some (minimax b depth maximizing ai alpha beta) ∧
    (get_legal_moves b = [] → is_terminal b = true) := by
  constructor
  · rw [minimax]
    rw [minimaxGo_fuel_irrel ai fuel (emptyCount b + 1) b depth maximizing alpha beta hfuel
      (by omega)]
    obtain ⟨p, hp⟩ := Option.isSome_iff_exists.mp
      (minimaxGo_isSome ai (emptyCount b + 1) b depth maximizing alpha beta (by omega))
    rw [hp]
    rfl
  · exact terminal_of_legal_nil

/-- Witness for C10 at a concrete input: the board with a single empty
cell, searched with a negative depth budget (-1), where the recursion
can only stop through the board measure; fuel 2 exceeds the one empty
cell and the fueled run returns the `minimax` value. -/
theorem minimax_terminates_witness :
    emptyCount almostFullBoard < 2 ∧
    minimaxGo Player.P1 2 almostFullBoard (-1) true ⊥ ⊤ =
      some (minimax almostFullBoard (-1) true Player.P1 ⊥ ⊤) :=
  ⟨by decide,
    (minimax_terminates almostFullBoard 2 (-1) true Player.P1 ⊥ ⊤ (by decide)).1⟩

/-- Abstract form of the root selection loop: fold over the remaining
moves, replacing the current choice exactly when a value strictly beats
the best score seen. -/
def selectLoop (valf : ℕ → EI) : List ℕ → EI → ℕ → ℕ
  | [], _, best_col => best_col
  | col :: rest, best_score, best_col =>
    if best_score < valf col then selectLoop valf rest (valf col) col
    else selectLoop valf rest best_score best_col

/-- The root loop of `get_best_move` computes the abstract selection
fold on the root values, and the sum of the per-child node counts. -/
theorem bestLoop_eq_selectLoop (b : Board) (ai : Player) (max_depth : ℤ) :
    ∀ (moves : List ℕ) (best_score : EI) (best_col nodes : ℕ),
      bestLoop b ai max_depth moves best_score best_col nodes =
        (selectLoop (rootVal b ai max_depth) moves best_score best_col,
          nodes + (moves.map (rootNodes b ai max_depth)).sum) := by
  intro moves
  induction moves with
  | nil =>
    intro bs bc nodes
    simp [bestLoop, selectLoop]
  | cons col rest ih =>
    intro bs bc nodes
    simp only [bestLoop, selectLoop, rootVal, rootNodes, List.map_cons, List.sum_cons]
    by_cases hc : bs < (minimax ((make_move b (col : ℤ) ai.toNat).getD b)
        (max_depth - 1) false ai ⊥ ⊤).1
    · rw [if_pos hc, if_pos hc, ih]
      simp [rootVal, rootNodes, Nat.add_assoc]
    · rw [if_neg hc, if_neg hc, ih]
      simp [rootVal, rootNodes, Nat.add_assoc]

/-- The selection fold returns either the initial choice (when nothing
beats the initial score) or the first move attaining the maximum among
those that beat it: nothing before it reaches its value, nothing after
exceeds it. -/
theorem selectLoop_spec (valf : ℕ → EI) :
    ∀ (moves : List ℕ) (bs : EI) (bc res : ℕ), selectLoop valf moves bs bc = res →
      (res = bc ∧ ∀ m ∈ moves, valf m ≤ bs) ∨
      (∃ pre post, moves = pre ++ res :: post ∧ bs < valf res ∧
        (∀ m ∈ pre, valf m < valf res) ∧ (∀ m ∈ post, valf m ≤ valf res)) := by
  intro moves
  induction moves with
  | nil =>
    intro bs bc res hres
    left
    exact ⟨hres.symm, by simp⟩
  | cons col rest ih =>
    intro bs bc res hres
    simp only [selectLoop] at hres
    by_cases hc : bs < valf col
    · rw [if_pos hc] at hres
      rcases ih (valf col) col res hres with ⟨heq, hall⟩ | ⟨pre, post, hsplit, hgt, hpre, hpost⟩
      · right
        refine ⟨[], rest, by simp [heq], ?_, by simp, ?_⟩
        · rw [heq]
          exact hc
        · intro m hm
          rw [heq]
          exact hall m hm
      · right
        refine ⟨col :: pre, post, by simp [hsplit], lt_trans hc hgt, ?_, hpost⟩
        intro m hm
        rcases List.mem_cons.mp hm with h | h
        · rw [h]
          exact hgt
        · exact hpre m h
    · rw [if_neg hc] at hres
      rcases ih bs bc res hres with ⟨heq, hall⟩ | ⟨pre, post, hsplit, hgt, hpre, hpost⟩
      · left
        refine ⟨heq, ?_⟩
        intro m hm
        rcases List.mem_cons.mp hm with h | h
        · rw [h]
          exact le_of_not_lt hc
        · exact hall m h
      · right
        refine ⟨col :: pre, post, by simp [hsplit], hgt, ?_, hpost⟩
        intro m hm
        rcases List.mem_cons.mp hm with h | h
        · rw [h]
          exact lt_of_le_of_lt (le_of_not_lt hc) hgt
        · exact hpre m h

/-- C7: with at least one legal move, `get_best_move` searches every
center-ordered legal root move's child at depth maxDepth - 1 from a
minimizing ply with bounds (-inf, +inf) (the value `rootVal`), updates
its choice only on strict improvement, and returns the first move of the
center-outward order whose value attains the maximum over all root
children. -/
theorem get_best_move_first_argmax (b : Board) (ai : Player) (max_depth : ℤ)
    (hne : get_legal_moves b ≠ []) :
    ∃ col nodes pre post,
      get_best_move b ai max_depth = some (col, nodes) ∧
      _order_moves (get_legal_moves b) = pre ++ col :: post ∧
      (∀ m ∈ pre, rootVal b ai max_depth m < rootVal b ai max_depth col) ∧
      (∀ m ∈ _order_moves (get_legal_moves b),
        rootVal b ai max_depth m ≤ rootVal b ai max_depth col) := by
  obtain ⟨m0, ms, hmoves⟩ : ∃ m0 ms, _order_moves (get_legal_moves b) = m0 :: ms := by
    rcases h : _order_moves (get_legal_moves b) with - | ⟨a, l⟩
    · exact absurd h (order_moves_ne_nil hne)
    · exact ⟨a, l, rfl⟩
  rw [hmoves]
  have hbm : get_best_move b ai max_depth =
      some (selectLoop (rootVal b ai max_depth) (m0 :: ms) ⊥ m0,
        0 + ((m0 :: ms).map (rootNodes b ai max_depth)).sum) := by
    rw [get_best_move, hmoves]
    show some (bestLoop b ai max_depth (m0 :: ms) ⊥ m0 0) = _
    rw [bestLoop_eq_selectLoop]
  rcases selectLoop_spec (rootVal b ai max_depth) (m0 :: ms) ⊥ m0
      (selectLoop (rootVal b ai max_depth) (m0 :: ms) ⊥ m0) rfl with
    ⟨heq, hall⟩ | ⟨pre, post, hsplit, -, hpre, hpost⟩
  · refine ⟨m0, 0 + ((m0 :: ms).map (rootNodes b ai max_depth)).sum, [], ms, ?_,
      by simp, by simp, ?_⟩
    · rw [hbm, heq]
    · intro m hm
      exact le_trans (hall m hm) bot_le
  · refine ⟨selectLoop (rootVal b ai max_depth) (m0 :: ms) ⊥ m0,
      0 + ((m0 :: ms).map (rootNodes b ai max_depth)).sum, pre, post, hbm,
      hsplit, hpre, ?_⟩
    intro m hm
    rw [hsplit] at hm
    rcases List.mem_append.mp hm with h | h
    · exact le_of_lt (hpre m h)
    · rcases List.mem_cons.mp h with h2 | h2
      · rw [h2]
      · exact hpost m h2

/-- Witness for C7 at a concrete input: the empty board with player 2
as the AI at maxDepth 1 has a legal move, so the first-argmax
description holds there. -/
theorem get_best_move_first_argmax_witness :
    get_legal_moves create_board ≠ [] ∧
    ∃ col nodes pre post,
      get_best_move create_board Player.P2 1 = some (col, nodes) ∧
      _order_moves (get_legal_moves create_board) = pre ++ col :: post ∧
      (∀ m ∈ pre, rootVal create_board Player.P2 1 m < rootVal create_board Player.P2 1 col) ∧
      (∀ m ∈ _order_moves (get_legal_moves create_board),
        rootVal create_board Player.P2 1 m ≤ rootVal create_board Player.P2 1 col) :=
  ⟨by decide, get_best_move_first_argmax create_board Player.P2 1 (by decide)⟩

/-- Value stored in an optional search result (default for `none`). -/
def pVal (o : Option (EI × ℕ)) : EI := (o.getD (iv 0, 0)).1

/-- Node count stored in an optional search result. -/
def pN (o : Option (EI × ℕ)) : ℕ := (o.getD (iv 0, 0)).2

/-- The running maximum only grows along the fold. -/
theorem foldl_max_le_init (g : ℕ → EI) :
    ∀ (l : List ℕ) (acc : EI), acc ≤ l.foldl (fun a c => max a (g c)) acc := by
  intro l
  induction l with
  | nil => intro acc; exact le_refl _
  | cons c rest ih =>
    intro acc
    exact le_trans (le_max_left acc (g c)) (ih (max acc (g c)))

/-- A maximum folded into the seed can be pulled out of the fold. -/
theorem foldl_max_pull (g : ℕ → EI) :
    ∀ (l : List ℕ) (acc x : EI),
      l.foldl (fun a c => max a (g c)) (max acc x) =
        max (l.foldl (fun a c => max a (g c)) acc) x := by
  intro l
  induction l with
  | nil => intro acc x; rfl
  | cons c rest ih =>
    intro acc x
    show rest.foldl _ (max (max acc x) (g c)) = _
    rw [show max (max acc x) (g c) = max (max acc (g c)) x from by
      rw [max_assoc, max_comm x (g c), ← max_assoc]]
    rw [ih (max acc (g c)) x]
    rfl

/-- The running minimum only shrinks along the fold. -/
theorem foldl_min_init_le (g : ℕ → EI) :
    ∀ (l : List ℕ) (acc : EI), l.foldl (fun a c => min a (g c)) acc ≤ acc := by
  intro l
  induction l with
  | nil => intro acc; exact le_refl _
  | cons c rest ih =>
    intro acc
    exact le_trans (ih (min acc (g c))) (min_le_left acc (g c))

/-- A minimum folded into the seed can be pulled out of the fold. -/
theorem foldl_min_pull (g : ℕ → EI) :
    ∀ (l : List ℕ) (acc x : EI),
      l.foldl (fun a c => min a (g c)) (min acc x) =
        min (l.foldl (fun a c => min a (g c)) acc) x := by
  intro l
  induction l with
  | nil => intro acc x; rfl
  | cons c rest ih =>
    intro acc x
    show rest.foldl _ (min (min acc x) (g c)) = _
    rw [show min (min acc x) (g c) = min (min acc (g c)) x from by
      rw [min_assoc, min_comm x (g c), ← min_assoc]]
    rw [ih (min acc (g c)) x]
    rfl

/-- A max-fold of finite values from a finite seed is finite. -/
theorem foldl_max_finite (g : ℕ → EI) :
    ∀ (l : List ℕ) (acc : EI), (∀ c ∈ l, ∃ z, g c = iv z) → (∃ za, acc = iv za) →
      ∃ z, l.foldl (fun a c => max a (g c)) acc = iv z := by
  intro l
  induction l with
  | nil => intro acc _ h; exact h
  | cons c rest ih =>
    intro acc hg ⟨za, hza⟩
    obtain ⟨zc, hzc⟩ := hg c (by simp)
    refine ih (max acc (g c)) (fun d hd => hg d (List.mem_cons_of_mem _ hd)) ?_
    exact ⟨max za zc, by rw [hza, hzc, max_iv]⟩

/-- A min-fold of finite values from a finite seed is finite. -/
theorem foldl_min_finite (g : ℕ → EI) :
    ∀ (l : List ℕ) (acc : EI), (∀ c ∈ l, ∃ z, g c = iv z) → (∃ za, acc = iv za) →
      ∃ z, l.foldl (fun a c => min a (g c)) acc = iv z := by
  intro l
  induction l with
  | nil => intro acc _ h; exact h
  | cons c rest ih =>
    intro acc hg ⟨za, hza⟩
    obtain ⟨zc, hzc⟩ := hg c (by simp)
    refine ih (min acc (g c)) (fun d hd => hg d (List.mem_cons_of_mem _ hd)) ?_
    exact ⟨min za zc, by rw [hza, hzc, min_iv]⟩

/-- The unpruned maximizing loop computes the max-fold of the child
values and the sum of the child node counts. -/
theorem plainMaxLoop_eq {evalP : Board → Option (EI × ℕ)} {mk : ℕ → Board} :
    ∀ (moves : List ℕ) (acc : EI), (∀ col ∈ moves, (evalP (mk col)).isSome) →
      plainMaxLoop evalP mk moves acc =
        some (moves.foldl (fun a c => max a (pVal (evalP (mk c)))) acc,
          (moves.map (fun c => pN (evalP (mk c)))).sum) := by
  intro moves
  induction moves with
  | nil => intro acc _; simp [plainMaxLoop]
  | cons col rest ih =>
    intro acc h
    obtain ⟨p, hp⟩ := Option.isSome_iff_exists.mp (h col (by simp))
    rcases p with ⟨v, n⟩
    simp only [plainMaxLoop]
    rw [hp]
    simp only
    rw [ih (max acc v) (fun c hc => h c (List.mem_cons_of_mem _ hc))]
    simp [pVal, pN, hp]

/-- The unpruned minimizing loop computes the min-fold of the child
values and the sum of the child node counts. -/
theorem plainMinLoop_eq {evalP : Board → Option (EI × ℕ)} {mk : ℕ → Board} :
    ∀ (moves : List ℕ) (acc : EI), (∀ col ∈ moves, (evalP (mk col)).isSome) →
      plainMinLoop evalP mk moves acc =
        some (moves.foldl (fun a c => min a (pVal (evalP (mk c)))) acc,
          (moves.map (fun c => pN (evalP (mk c)))).sum) := by
  intro moves
  induction moves with
  | nil => intro acc _; simp [plainMinLoop]
  | cons col rest ih =>
    intro acc h
    obtain ⟨p, hp⟩ := Option.isSome_iff_exists.mp (h col (by simp))
    rcases p with ⟨v, n⟩
    simp only [plainMinLoop]
    rw [hp]
    simp only
    rw [ih (min acc v) (fun c hc => h c (List.mem_cons_of_mem _ hc))]
    simp [pVal, pN, hp]

/-- Fail-soft alpha-beta bracket for the maximizing loop: if every
child evaluation is bracketed against its unpruned value (exact inside
the window, an upper bound of it when failing low, a lower bound when
failing high) with no more nodes, then the loop value is bracketed the
same way against the max-fold of the unpruned child values, with no
more nodes than the full sum. -/
theorem abMaxLoop_bracket {evalA : Board → EI → EI → Option (EI × ℕ)}
    {evalP : Board → Option (EI × ℕ)} {mk : ℕ → Board} :
    ∀ moves : List ℕ,
    (∀ col ∈ moves,
      (∃ zp np2, evalP (mk col) = some (iv zp, np2)) ∧
      (∀ a bb, a < bb → ∃ z n, evalA (mk col) a bb = some (iv z, n) ∧
        n ≤ pN (evalP (mk col)) ∧
        (a < iv z → iv z < bb → iv z = pVal (evalP (mk col))) ∧
        (iv z ≤ a → pVal (evalP (mk col)) ≤ iv z) ∧
        (bb ≤ iv z → iv z ≤ pVal (evalP (mk col))))) →
    ∀ alpha beta acc, acc ≤ alpha → alpha < beta → (acc = ⊥ ∨ ∃ za, acc = iv za) →
    ∃ v nA, abMaxLoop evalA mk moves alpha beta acc = some (v, nA) ∧
      nA ≤ (moves.map (fun c => pN (evalP (mk c)))).sum ∧
      acc ≤ v ∧
      (v = acc ∨ ∃ zv, v = iv zv) ∧
      (moves ≠ [] → ∃ zv, v = iv zv) ∧
      (alpha < v → v < beta →
        v = moves.foldl (fun a c => max a (pVal (evalP (mk c)))) acc) ∧
      (v ≤ alpha → moves.foldl (fun a c => max a (pVal (evalP (mk c)))) acc ≤ v) ∧
      (beta ≤ v → v ≤ moves.foldl (fun a c => max a (pVal (evalP (mk c)))) acc) := by
  intro moves
  induction moves with
  | nil =>
    intro _ alpha beta acc hacc hab _
    exact ⟨acc, 0, rfl, by simp, le_refl _, Or.inl rfl, fun h => absurd rfl h,
      fun _ _ => rfl, fun _ => le_refl _, fun _ => le_refl _⟩
  | cons col rest ih =>
    intro hch alpha beta acc haccle hab haccfin
    obtain ⟨⟨zp1, np1, hP1⟩, hAB1⟩ := hch col (by simp)
    obtain ⟨z1, n1, hA1e, hn1, hE1, hL1, hH1⟩ := hAB1 alpha beta hab
    have hpv1 : pVal (evalP (mk col)) = iv zp1 := by rw [pVal, hP1]; rfl
    have hpn1 : pN (evalP (mk col)) = np1 := by rw [pN, hP1]; rfl
    rw [hpv1] at hE1 hL1 hH1
    rw [hpn1] at hn1
    have hfoldgoal : (col :: rest).foldl (fun a c => max a (pVal (evalP (mk c)))) acc
        = max (rest.foldl (fun a c => max a (pVal (evalP (mk c)))) acc) (iv zp1) := by
      rw [List.foldl_cons, hpv1, foldl_max_pull]
    simp only [abMaxLoop]
    rw [hA1e]
    dsimp only
    by_cases hcut : beta ≤ max alpha (iv z1)
    · rw [if_pos hcut]
      have hbz : beta ≤ iv z1 := by
        rcases max_choice alpha (iv z1) with hm | hm
        · rw [hm] at hcut
          exact absurd hcut (not_le_of_lt hab)
        · rw [hm] at hcut
          exact hcut
      have hfin : ∃ zv, max acc (iv z1) = iv zv := by
        rcases haccfin with h | ⟨za, hza⟩
        · exact ⟨z1, by rw [h]; exact max_eq_right bot_le⟩
        · exact ⟨max za z1, by rw [hza, max_iv]⟩
      refine ⟨max acc (iv z1), n1, rfl, ?_, le_max_left _ _, Or.inr hfin,
        fun _ => hfin, ?_, ?_, ?_⟩
      · simp only [List.map_cons, List.sum_cons, hpn1]
        exact le_trans hn1 (Nat.le_add_right _ _)
      · intro _ hvb
        exact absurd hvb (not_lt_of_le (le_trans hbz (le_max_right _ _)))
      · intro hva
        exact absurd hab (not_lt_of_le
          (le_trans hbz (le_trans (le_max_right acc (iv z1)) hva)))
      · intro _
        rw [hfoldgoal]
        exact max_le (le_trans (foldl_max_le_init _ rest acc) (le_max_left _ _))
          (le_trans (hH1 hbz) (le_max_right _ _))
    · rw [if_neg hcut]
      have hab2 : max alpha (iv z1) < beta := lt_of_not_le hcut
      have hz1b : iv z1 < beta := lt_of_le_of_lt (le_max_right alpha (iv z1)) hab2
      have haccle2 : max acc (iv z1) ≤ max alpha (iv z1) := max_le_max haccle (le_refl _)
      have hafin2 : ∃ za, max acc (iv z1) = iv za := by
        rcases haccfin with h | ⟨za, hza⟩
        · exact ⟨z1, by rw [h]; exact max_eq_right bot_le⟩
        · exact ⟨max za z1, by rw [hza, max_iv]⟩
      obtain ⟨v, nrest, hloop, hnr, haccv, hdisj, -, hE2, hL2, hH2⟩ :=
        ih (fun c hc => hch c (List.mem_cons_of_mem _ hc))
          (max alpha (iv z1)) beta (max acc (iv z1)) haccle2 hab2 (Or.inr hafin2)
      rw [foldl_max_pull] at hE2 hL2 hH2
      rw [hloop]
      have hvfin : ∃ zv, v = iv zv := by
        rcases hdisj with h | h
        · rw [h]
          exact hafin2
        · exact h
      refine ⟨v, n1 + nrest, rfl, ?_,
        le_trans (le_max_left acc (iv z1)) haccv, Or.inr hvfin, fun _ => hvfin,
        ?_, ?_, ?_⟩
      · simp only [List.map_cons, List.sum_cons, hpn1]
        exact Nat.add_le_add hn1 hnr
      · intro hav hvb
        rw [hfoldgoal]
        by_cases hza : iv z1 ≤ alpha
        · have hzp1z1 : iv zp1 ≤ iv z1 := hL1 hza
          rw [max_eq_left hza] at hE2
          have hvM2 := hE2 hav hvb
          rcases max_choice (rest.foldl (fun a c => max a (pVal (evalP (mk c)))) acc)
              (iv z1) with hm | hm
          · rw [hm] at hvM2
            have hzF : iv zp1 ≤ rest.foldl (fun a c => max a (pVal (evalP (mk c)))) acc := by
              rw [← hvM2]
              exact le_trans hzp1z1 (le_trans hza (le_of_lt hav))
            rw [max_eq_left hzF]
            exact hvM2
          · rw [hm] at hvM2
            exact absurd hav (not_lt_of_le (le_trans (le_of_eq hvM2) hza))
        · have haz1 : alpha < iv z1 := lt_of_not_le hza
          have hz1zp : iv z1 = iv zp1 := hE1 haz1 hz1b
          rw [← hz1zp]
          by_cases hva2 : v ≤ max alpha (iv z1)
          · have hM2v := hL2 hva2
            have hvz1 : v ≤ iv z1 := by
              rcases max_choice alpha (iv z1) with hm | hm
              · rw [hm] at hva2
                exact absurd hav (not_lt_of_le hva2)
              · rw [hm] at hva2
                exact hva2
            exact le_antisymm (le_trans hvz1 (le_max_right _ _)) hM2v
          · exact hE2 (lt_of_not_le hva2) hvb
      · intro hva
        rw [hfoldgoal]
        by_cases hza : iv z1 ≤ alpha
        · have hzp1z1 : iv zp1 ≤ iv z1 := hL1 hza
          rw [max_eq_left hza] at hL2
          exact le_trans (max_le_max (le_refl _) hzp1z1) (hL2 hva)
        · have haz1 : alpha < iv z1 := lt_of_not_le hza
          have hz1v : iv z1 ≤ v := le_trans (le_max_right acc (iv z1)) haccv
          exact absurd hva (not_le_of_lt (lt_of_lt_of_le haz1 hz1v))
      · intro hbv
        rw [hfoldgoal]
        by_cases hza : iv z1 ≤ alpha
        · have hvM2 := hH2 hbv
          rcases max_choice (rest.foldl (fun a c => max a (pVal (evalP (mk c)))) acc)
              (iv z1) with hm | hm
          · rw [hm] at hvM2
            exact le_trans hvM2 (le_max_left _ _)
          · rw [hm] at hvM2
            exact absurd hab (not_lt_of_le (le_trans hbv (le_trans hvM2 hza)))
        · have haz1 : alpha < iv z1 := lt_of_not_le hza
          have hz1zp : iv z1 = iv zp1 := hE1 haz1 hz1b
          rw [← hz1zp]
          exact hH2 hbv

/-- Fail-soft alpha-beta bracket for the minimizing loop, the dual of
`abMaxLoop_bracket`: the loop value is bracketed against the min-fold of
the unpruned child values, with no more nodes than the full sum. -/
theorem abMinLoop_bracket {evalA : Board → EI → EI → Option (EI × ℕ)}
    {evalP : Board → Option (EI × ℕ)} {mk : ℕ → Board} :
    ∀ moves : List ℕ,
    (∀ col ∈ moves,
      (∃ zp np2, evalP (mk col) = some (iv zp, np2)) ∧
      (∀ a bb, a < bb → ∃ z n, evalA (mk col) a bb = some (iv z, n) ∧
        n ≤ pN (evalP (mk col)) ∧
        (a < iv z → iv z < bb → iv z = pVal (evalP (mk col))) ∧
        (iv z ≤ a → pVal (evalP (mk col)) ≤ iv z) ∧
        (bb ≤ iv z → iv z ≤ pVal (evalP (mk col))))) →
    ∀ alpha beta acc, beta ≤ acc → alpha < beta → (acc = ⊤ ∨ ∃ za, acc = iv za) →
    ∃ v nA, abMinLoop evalA mk moves alpha beta acc = some (v, nA) ∧
      nA ≤ (moves.map (fun c => pN (evalP (mk c)))).sum ∧
      v ≤ acc ∧
      (v = acc ∨ ∃ zv, v = iv zv) ∧
      (moves ≠ [] → ∃ zv, v = iv zv) ∧
      (alpha < v → v < beta →
        v = moves.foldl (fun a c => min a (pVal (evalP (mk c)))) acc) ∧
      (v ≤ alpha → moves.foldl (fun a c => min a (pVal (evalP (mk c)))) acc ≤ v) ∧
      (beta ≤ v → v ≤ moves.foldl (fun a c => min a (pVal (evalP (mk c)))) acc) := by
  intro moves
  induction moves with
  | nil =>
    intro _ alpha beta acc hacc hab _
    exact ⟨acc, 0, rfl, by simp, le_refl _, Or.inl rfl, fun h => absurd rfl h,
      fun _ _ => rfl, fun _ => le_refl _, fun _ => le_refl _⟩
  | cons col rest ih =>
    intro hch alpha beta acc haccge hab haccfin
    obtain ⟨⟨zp1, np1, hP1⟩, hAB1⟩ := hch col (by simp)
    obtain ⟨z1, n1, hA1e, hn1, hE1, hL1, hH1⟩ := hAB1 alpha beta hab
    have hpv1 : pVal (evalP (mk col)) = iv zp1 := by rw [pVal, hP1]; rfl
    have hpn1 : pN (evalP (mk col)) = np1 := by rw [pN, hP1]; rfl
    rw [hpv1] at hE1 hL1 hH1
    rw [hpn1] at hn1
    have hfoldgoal : (col :: rest).foldl (fun a c => min a (pVal (evalP (mk c)))) acc
        = min (rest.foldl (fun a c => min a (pVal (evalP (mk c)))) acc) (iv zp1) := by
      rw [List.foldl_cons, hpv1, foldl_min_pull]
    simp only [abMinLoop]
    rw [hA1e]
    dsimp only
    by_cases hcut : min beta (iv z1) ≤ alpha
    · rw [if_pos hcut]
      have hza : iv z1 ≤ alpha := by
        rcases min_choice beta (iv z1) with hm | hm
        · rw [hm] at hcut
          exact absurd hab (not_lt_of_le hcut)
        · rw [hm] at hcut
          exact hcut
      have hfin : ∃ zv, min acc (iv z1) = iv zv := by
        rcases haccfin with h | ⟨za, hza2⟩
        · exact ⟨z1, by rw [h]; exact min_eq_right le_top⟩
        · exact ⟨min za z1, by rw [hza2, min_iv]⟩
      refine ⟨min acc (iv z1), n1, rfl, ?_, min_le_left _ _, Or.inr hfin,
        fun _ => hfin, ?_, ?_, ?_⟩
      · simp only [List.map_cons, List.sum_cons, hpn1]
        exact le_trans hn1 (Nat.le_add_right _ _)
      · intro hav _
        exact absurd hav (not_lt_of_le (le_trans (min_le_right acc (iv z1)) hza))
      · intro _
        rw [hfoldgoal]
        refine le_min ?_ ?_
        · exact le_trans (min_le_left _ _) (foldl_min_init_le _ rest acc)
        · exact le_trans (min_le_right _ _) (hL1 hza)
      · intro hbv
        exact absurd hab (not_lt_of_le
          (le_trans hbv (le_trans (min_le_right acc (iv z1)) hza)))
    · rw [if_neg hcut]
      have hab2 : alpha < min beta (iv z1) := lt_of_not_le hcut
      have haz1 : alpha < iv z1 := lt_of_lt_of_le hab2 (min_le_right beta (iv z1))
      have haccge2 : min beta (iv z1) ≤ min acc (iv z1) := min_le_min haccge (le_refl _)
      have hafin2 : ∃ za, min acc (iv z1) = iv za := by
        rcases haccfin with h | ⟨za, hza2⟩
        · exact ⟨z1, by rw [h]; exact min_eq_right le_top⟩
        · exact ⟨min za z1, by rw [hza2, min_iv]⟩
      obtain ⟨v, nrest, hloop, hnr, haccv, hdisj, -, hE2, hL2, hH2⟩ :=
        ih (fun c hc => hch c (List.mem_cons_of_mem _ hc))
          alpha (min beta (iv z1)) (min acc (iv z1)) haccge2 hab2 (Or.inr hafin2)
      rw [foldl_min_pull] at hE2 hL2 hH2
      rw [hloop]
      have hvfin : ∃ zv, v = iv zv := by
        rcases hdisj with h | h
        · rw [h]
          exact hafin2
        · exact h
      refine ⟨v, n1 + nrest, rfl, ?_,
        le_trans haccv (min_le_left acc (iv z1)), Or.inr hvfin, fun _ => hvfin,
        ?_, ?_, ?_⟩
      · simp only [List.map_cons, List.sum_cons, hpn1]
        exact Nat.add_le_add hn1 hnr
      · intro hav hvb
        rw [hfoldgoal]
        by_cases hbz : beta ≤ iv z1
        · have hz1zp : iv z1 ≤ iv zp1 := hH1 hbz
          rw [min_eq_left hbz] at hE2
          have hvM2 := hE2 hav hvb
          rcases min_choice (rest.foldl (fun a c => min a (pVal (evalP (mk c)))) acc)
              (iv z1) with hm | hm
          · rw [hm] at hvM2
            have hFz : rest.foldl (fun a c => min a (pVal (evalP (mk c)))) acc ≤ iv zp1 := by
              rw [← hvM2]
              exact le_trans (le_of_lt hvb) (le_trans hbz hz1zp)
            rw [min_eq_left hFz]
            exact hvM2
          · rw [hm] at hvM2
            exact absurd hvb (not_lt_of_le (le_trans hbz (le_of_eq hvM2.symm)))
        · have hz1b : iv z1 < beta := lt_of_not_le hbz
          have hz1zp : iv z1 = iv zp1 := hE1 haz1 hz1b
          rw [← hz1zp]
          by_cases hvb2 : v < min beta (iv z1)
          · exact hE2 hav hvb2
          · have hvM2 := hH2 (le_of_not_lt hvb2)
            have hz1v : iv z1 ≤ v := by
              rcases min_choice beta (iv z1) with hm | hm
              · rw [hm] at hvb2
                exact absurd hvb hvb2
              · rw [hm] at hvb2
                exact le_of_not_lt hvb2
            exact le_antisymm hvM2 (le_trans (min_le_right _ _) hz1v)
      · intro hva
        rw [hfoldgoal]
        by_cases hbz : beta ≤ iv z1
        · have hvM2 := hL2 hva
          rcases min_choice (rest.foldl (fun a c => min a (pVal (evalP (mk c)))) acc)
              (iv z1) with hm | hm
          · rw [hm] at hvM2
            exact le_trans (min_le_left _ _) hvM2
          · rw [hm] at hvM2
            exact absurd hab (not_lt_of_le (le_trans hbz (le_trans hvM2 hva)))
        · have hz1b : iv z1 < beta := lt_of_not_le hbz
          have hz1zp : iv z1 = iv zp1 := hE1 haz1 hz1b
          rw [← hz1zp]
          exact hL2 hva
      · intro hbv
        rw [hfoldgoal]
        by_cases hbz : beta ≤ iv z1
        · have hz1zp : iv z1 ≤ iv zp1 := hH1 hbz
          rw [min_eq_left hbz] at hH2
          have hvM2 := hH2 hbv
          refine le_min (le_trans hvM2 (min_le_left _ _)) ?_
          exact le_trans hvM2 (le_trans (min_le_right _ _) hz1zp)
        · have hz1b : iv z1 < beta := lt_of_not_le hbz
          have hvz1 : v ≤ iv z1 := le_trans haccv (min_le_right acc (iv z1))
          exact absurd (lt_of_le_of_lt hvz1 hz1b) (not_lt_of_le hbv)

/-- Finite extended values with equal embeddings are equal. -/
theorem iv_inj {a b : ℤ} (h : iv a = iv b) : a = b := by
  rwa [iv, iv, WithBot.coe_inj, WithTop.coe_inj] at h

/-- Bottom is strictly below top. -/
theorem bot_lt_top_EI : (⊥ : EI) < ⊤ := lt_trans (bot_lt_iv 0) (iv_lt_top 0)

/-- Main fail-soft alpha-beta theorem: at every node, with enough fuel
and a non-empty window, the pruned search and the unpruned search both
return, the pruned search expands no more nodes, and the pruned value
equals the unpruned value whenever it falls strictly inside the window
(on a fail-low it upper-bounds the unpruned value, on a fail-high it
lower-bounds it). -/
theorem minimaxGo_bracket (ai : Player) :
    ∀ fuel b depth maximizing alpha beta,
      emptyCount b < fuel → alpha < beta →
      ∃ z nn zp np2,
        minimaxGo ai fuel b depth maximizing alpha beta = some (iv z, nn) ∧
        minimaxPlainGo ai fuel b depth maximizing = some (iv zp, np2) ∧
        nn ≤ np2 ∧
        (alpha < iv z → iv z < beta → z = zp) ∧
        (iv z ≤ alpha → zp ≤ z) ∧
        (beta ≤ iv z → z ≤ zp) := by
  intro fuel
  induction fuel with
  | zero =>
    intro b _ _ _ _ h _
    omega
  | succ n ih =>
    intro b depth maximizing alpha beta hfuel hab
    by_cases hterm : is_terminal b = true
    · rcases hw : get_winner b with - | w
      · exact ⟨0, 1, 0, 1, by simp [minimaxGo, hterm, hw],
          by simp [minimaxPlainGo, hterm, hw], le_refl 1,
          fun _ _ => rfl, fun _ => le_refl 0, fun _ => le_refl 0⟩
      · by_cases hwa : w = ai.toNat
        · exact ⟨1000 + depth, 1, 1000 + depth, 1,
            by simp [minimaxGo, hterm, hw, hwa],
            by simp [minimaxPlainGo, hterm, hw, hwa], le_refl 1,
            fun _ _ => rfl, fun _ => le_refl _, fun _ => le_refl _⟩
        · exact ⟨-1000 - depth, 1, -1000 - depth, 1,
            by simp [minimaxGo, hterm, hw, hwa],
            by simp [minimaxPlainGo, hterm, hw, hwa], le_refl 1,
            fun _ _ => rfl, fun _ => le_refl _, fun _ => le_refl _⟩
    · by_cases hd : depth = 0
      · exact ⟨heuristic_evaluate b ai.toNat, 1, heuristic_evaluate b ai.toNat, 1,
          by simp [minimaxGo, hterm, hd],
          by simp [minimaxPlainGo, hterm, hd], le_refl 1,
          fun _ _ => rfl, fun _ => le_refl _, fun _ => le_refl _⟩
      · have hterm2 : is_terminal b = false := by
          cases h : is_terminal b
          · rfl
          · exact absurd h hterm
        have hne : _order_moves (get_legal_moves b) ≠ [] :=
          order_moves_ne_nil (legal_ne_nil_of_not_terminal hterm2)
        by_cases hmax : maximizing
        · have hch : ∀ col ∈ _order_moves (get_legal_moves b),
              (∃ zp np2, (fun c => minimaxPlainGo ai n c (depth - 1) false)
                  ((fun (col : ℕ) => (make_move b (col : ℤ) ai.toNat).getD b) col) =
                some (iv zp, np2)) ∧
              (∀ a bb, a < bb → ∃ z nn,
                (fun c a2 bb2 => minimaxGo ai n c (depth - 1) false a2 bb2)
                    ((fun (col : ℕ) => (make_move b (col : ℤ) ai.toNat).getD b) col) a bb =
                  some (iv z, nn) ∧
                nn ≤ pN ((fun c => minimaxPlainGo ai n c (depth - 1) false)
                  ((fun (col : ℕ) => (make_move b (col : ℤ) ai.toNat).getD b) col)) ∧
                (a < iv z → iv z < bb → iv z =
                  pVal ((fun c => minimaxPlainGo ai n c (depth - 1) false)
                    ((fun (col : ℕ) => (make_move b (col : ℤ) ai.toNat).getD b) col))) ∧
                (iv z ≤ a → pVal ((fun c => minimaxPlainGo ai n c (depth - 1) false)
                  ((fun (col : ℕ) => (make_move b (col : ℤ) ai.toNat).getD b) col)) ≤ iv z) ∧
                (bb ≤ iv z → iv z ≤
                  pVal ((fun c => minimaxPlainGo ai n c (depth - 1) false)
                    ((fun (col : ℕ) => (make_move b (col : ℤ) ai.toNat).getD b) col)))) := by
            intro col hcol
            have hchild : emptyCount ((make_move b (col : ℤ) ai.toNat).getD b) < n :=
              emptyCount_child_lt_fuel (mem_order_moves.mp hcol)
                (player_toNat_ne_empty ai) hfuel
            obtain ⟨z0, n0, zp0, np0, -, hPe, -, -, -, -⟩ :=
              ih _ (depth - 1) false ⊥ ⊤ hchild bot_lt_top_EI
            have hpv : pVal (minimaxPlainGo ai n
                ((make_move b (col : ℤ) ai.toNat).getD b) (depth - 1) false) = iv zp0 := by
              rw [hPe]; rfl
            have hpn : pN (minimaxPlainGo ai n
                ((make_move b (col : ℤ) ai.toNat).getD b) (depth - 1) false) = np0 := by
              rw [hPe]; rfl
            refine ⟨⟨zp0, np0, hPe⟩, ?_⟩
            intro a bb hab2
            obtain ⟨z, nn, zp1, np1, hAe, hPe1, hn1, hE, hL, hH⟩ :=
              ih _ (depth - 1) false a bb hchild hab2
            have heq : iv zp1 = iv zp0 ∧ np1 = np0 := by
              have := hPe1.symm.trans hPe
              rw [Option.some_inj, Prod.mk.injEq] at this
              exact this
            refine ⟨z, nn, hAe, ?_, ?_, ?_, ?_⟩
            · rw [hpn]
              exact heq.2 ▸ hn1
            · intro h1 h2
              rw [hpv, ← heq.1]
              exact congrArg iv (hE h1 h2)
            · intro h1
              rw [hpv, ← heq.1]
              exact iv_le_iv.mpr (hL h1)
            · intro h1
              rw [hpv, ← heq.1]
              exact iv_le_iv.mpr (hH h1)
          obtain ⟨v, nA, hloop, hnode, -, -, hfinne, hEv, hLv, hHv⟩ :=
            @abMaxLoop_bracket (fun c a2 bb2 => minimaxGo ai n c (depth - 1) false a2 bb2)
              (fun c => minimaxPlainGo ai n c (depth - 1) false)
              (fun (col : ℕ) => (make_move b (col : ℤ) ai.toNat).getD b)
              (_order_moves (get_legal_moves b)) hch alpha beta ⊥ bot_le hab (Or.inl rfl)
          obtain ⟨zv, hzv⟩ := hfinne hne
          subst hzv
          have hsome : ∀ col ∈ _order_moves (get_legal_moves b),
              ((fun c => minimaxPlainGo ai n c (depth - 1) false)
                ((fun (col : ℕ) => (make_move b (col : ℤ) ai.toNat).getD b) col)).isSome := by
            intro col hcol
            obtain ⟨⟨zp0, np0, hPe⟩, -⟩ := hch col hcol
            rw [hPe]
            rfl
          have hplain := @plainMaxLoop_eq (fun c => minimaxPlainGo ai n c (depth - 1) false)
            (fun (col : ℕ) => (make_move b (col : ℤ) ai.toNat).getD b)
            (_order_moves (get_legal_moves b)) ⊥ hsome
          obtain ⟨zM, hzM⟩ : ∃ zM, (_order_moves (get_legal_moves b)).foldl
              (fun a c => max a (pVal ((fun c2 => minimaxPlainGo ai n c2 (depth - 1) false)
                ((fun (col : ℕ) => (make_move b (col : ℤ) ai.toNat).getD b) c)))) ⊥ = iv zM := by
            obtain ⟨m0, ms, hms⟩ := List.exists_cons_of_ne_nil hne
            rw [hms, List.foldl_cons]
            obtain ⟨⟨zp0, np0, hPe⟩, -⟩ := hch m0 (by rw [hms]; simp)
            have hpv0 : pVal ((fun c => minimaxPlainGo ai n c (depth - 1) false)
                ((fun (col : ℕ) => (make_move b (col : ℤ) ai.toNat).getD b) m0)) = iv zp0 := by
              rw [hPe]; rfl
            rw [show max (⊥ : EI) (pVal ((fun c2 => minimaxPlainGo ai n c2 (depth - 1) false)
                ((fun (col : ℕ) => (make_move b (col : ℤ) ai.toNat).getD b) m0))) = iv zp0 from by
              rw [hpv0]
              exact max_eq_right bot_le]
            refine foldl_max_finite _ ms (iv zp0) ?_ ⟨zp0, rfl⟩
            intro c hc
            obtain ⟨⟨zpc, npc, hPc⟩, -⟩ := hch c (by rw [hms]; simp [hc])
            exact ⟨zpc, by rw [hPc]; rfl⟩
          refine ⟨zv, nA + 1, zM, ((_order_moves (get_legal_moves b)).map
              (fun c => pN ((fun c2 => minimaxPlainGo ai n c2 (depth - 1) false)
                ((fun (col : ℕ) => (make_move b (col : ℤ) ai.toNat).getD b) c)))).sum + 1,
            ?_, ?_, Nat.succ_le_succ hnode, ?_, ?_, ?_⟩
          · simp only [minimaxGo, hterm, hd, hmax, Bool.false_eq_true, if_false, if_true]
            rw [hloop]
            rfl
          · simp only [minimaxPlainGo, hterm, hd, hmax, Bool.false_eq_true, if_false,
              if_true]
            rw [hplain, hzM]
            rfl
          · intro h1 h2
            exact iv_inj ((hEv h1 h2).trans hzM)
          · intro h1
            exact iv_le_iv.mp (hzM ▸ hLv h1)
          · intro h1
            exact iv_le_iv.mp (hzM ▸ hHv h1)
        · have hch : ∀ col ∈ _order_moves (get_legal_moves b),
              (∃ zp np2, (fun c => minimaxPlainGo ai n c (depth - 1) true)
                  ((fun (col : ℕ) => (make_move b (col : ℤ) (get_opponent ai.toNat)).getD b) col) =
                some (iv zp, np2)) ∧
              (∀ a bb, a < bb → ∃ z nn,
                (fun c a2 bb2 => minimaxGo ai n c (depth - 1) true a2 bb2)
                    ((fun (col : ℕ) => (make_move b (col : ℤ) (get_opponent ai.toNat)).getD b) col)
                    a bb =
                  some (iv z, nn) ∧
                nn ≤ pN ((fun c => minimaxPlainGo ai n c (depth - 1) true)
                  ((fun (col : ℕ) => (make_move b (col : ℤ) (get_opponent ai.toNat)).getD b) col)) ∧
                (a < iv z → iv z < bb → iv z =
                  pVal ((fun c => minimaxPlainGo ai n c (depth - 1) true)
                    ((fun (col : ℕ) => (make_move b (col : ℤ) (get_opponent ai.toNat)).getD b) col))) ∧
                (iv z ≤ a → pVal ((fun c => minimaxPlainGo ai n c (depth - 1) true)
                  ((fun (col : ℕ) => (make_move b (col : ℤ) (get_opponent ai.toNat)).getD b) col)) ≤
                    iv z) ∧
                (bb ≤ iv z → iv z ≤
                  pVal ((fun c => minimaxPlainGo ai n c (depth - 1) true)
                    ((fun (col : ℕ) => (make_move b (col : ℤ) (get_opponent ai.toNat)).getD b) col)))) := by
            intro col hcol
            have hchild : emptyCount
                ((make_move b (col : ℤ) (get_opponent ai.toNat)).getD b) < n :=
              emptyCount_child_lt_fuel (mem_order_moves.mp hcol)
                (opponent_toNat_ne_empty ai) hfuel
            obtain ⟨z0, n0, zp0, np0, -, hPe, -, -, -, -⟩ :=
              ih _ (depth - 1) true ⊥ ⊤ hchild bot_lt_top_EI
            have hpv : pVal (minimaxPlainGo ai n
                ((make_move b (col : ℤ) (get_opponent ai.toNat)).getD b)
                (depth - 1) true) = iv zp0 := by
              rw [hPe]; rfl
            have hpn : pN (minimaxPlainGo ai n
                ((make_move b (col : ℤ) (get_opponent ai.toNat)).getD b)
                (depth - 1) true) = np0 := by
              rw [hPe]; rfl
            refine ⟨⟨zp0, np0, hPe⟩, ?_⟩
            intro a bb hab2
            obtain ⟨z, nn, zp1, np1, hAe, hPe1, hn1, hE, hL, hH⟩ :=
              ih _ (depth - 1) true a bb hchild hab2
            have heq : iv zp1 = iv zp0 ∧ np1 = np0 := by
              have := hPe1.symm.trans hPe
              rw [Option.some_inj, Prod.mk.injEq] at this
              exact this
            refine ⟨z, nn, hAe, ?_, ?_, ?_, ?_⟩
            · rw [hpn]
              exact heq.2 ▸ hn1
            · intro h1 h2
              rw [hpv, ← heq.1]
              exact congrArg iv (hE h1 h2)
            · intro h1
              rw [hpv, ← heq.1]
              exact iv_le_iv.mpr (hL h1)
            · intro h1
              rw [hpv, ← heq.1]
              exact iv_le_iv.mpr (hH h1)
          obtain ⟨v, nA, hloop, hnode, -, -, hfinne, hEv, hLv, hHv⟩ :=
            @abMinLoop_bracket (fun c a2 bb2 => minimaxGo ai n c (depth - 1) true a2 bb2)
              (fun c => minimaxPlainGo ai n c (depth - 1) true)
              (fun (col : ℕ) => (make_move b (col : ℤ) (get_opponent ai.toNat)).getD b)
              (_order_moves (get_legal_moves b)) hch alpha beta ⊤ le_top hab (Or.inl rfl)
          obtain ⟨zv, hzv⟩ := hfinne hne
          subst hzv
          have hsome : ∀ col ∈ _order_moves (get_legal_moves b),
              ((fun c => minimaxPlainGo ai n c (depth - 1) true)
                ((fun (col : ℕ) => (make_move b (col : ℤ) (get_opponent ai.toNat)).getD b)
                  col)).isSome := by
            intro col hcol
            obtain ⟨⟨zp0, np0, hPe⟩, -⟩ := hch col hcol
            rw [hPe]
            rfl
          have hplain := @plainMinLoop_eq (fun c => minimaxPlainGo ai n c (depth - 1) true)
            (fun (col : ℕ) => (make_move b (col : ℤ) (get_opponent ai.toNat)).getD b)
            (_order_moves (get_legal_moves b)) ⊤ hsome
          obtain ⟨zM, hzM⟩ : ∃ zM, (_order_moves (get_legal_moves b)).foldl
              (fun a c => min a (pVal ((fun c2 => minimaxPlainGo ai n c2 (depth - 1) true)
                ((fun (col : ℕ) => (make_move b (col : ℤ) (get_opponent ai.toNat)).getD b) c)))) ⊤ =
              iv zM := by
            obtain ⟨m0, ms, hms⟩ := List.exists_cons_of_ne_nil hne
            rw [hms, List.foldl_cons]
            obtain ⟨⟨zp0, np0, hPe⟩, -⟩ := hch m0 (by rw [hms]; simp)
            have hpv0 : pVal ((fun c => minimaxPlainGo ai n c (depth - 1) true)
                ((fun (col : ℕ) => (make_move b (col : ℤ) (get_opponent ai.toNat)).getD b) m0)) =
                iv zp0 := by
              rw [hPe]; rfl
            rw [show min (⊤ : EI) (pVal ((fun c2 => minimaxPlainGo ai n c2 (depth - 1) true)
                ((fun (col : ℕ) => (make_move b (col : ℤ) (get_opponent ai.toNat)).getD b) m0))) =
                iv zp0 from by
              rw [hpv0]
              exact min_eq_right le_top]
            refine foldl_min_finite _ ms (iv zp0) ?_ ⟨zp0, rfl⟩
            intro c hc
            obtain ⟨⟨zpc, npc, hPc⟩, -⟩ := hch c (by rw [hms]; simp [hc])
            exact ⟨zpc, by rw [hPc]; rfl⟩
          refine ⟨zv, nA + 1, zM, ((_order_moves (get_legal_moves b)).map
              (fun c => pN ((fun c2 => minimaxPlainGo ai n c2 (depth - 1) true)
                ((fun (col : ℕ) => (make_move b (col : ℤ) (get_opponent ai.toNat)).getD b) c)))).sum
              + 1,
            ?_, ?_, Nat.succ_le_succ hnode, ?_, ?_, ?_⟩
          · simp only [minimaxGo, hterm, hd, hmax, Bool.false_eq_true, if_false, if_true]
            rw [hloop]
            rfl
          · simp only [minimaxPlainGo, hterm, hd, hmax, Bool.false_eq_true, if_false,
              if_true]
            rw [hplain, hzM]
            rfl
          · intro h1 h2
            exact iv_inj ((hEv h1 h2).trans hzM)
          · intro h1
            exact iv_le_iv.mp (hzM ▸ hLv h1)
          · intro h1
            exact iv_le_iv.mp (hzM ▸ hHv h1)

/-- With the full window (-inf, +inf), the pruned search returns exactly
the unpruned minimax value and expands no more nodes. -/
theorem minimax_fullwindow_eq_noprune (b : Board) (depth : ℤ) (maximizing : Bool)
    (ai : Player) :
    (minimax b depth maximizing ai ⊥ ⊤).1 = (minimax_noprune b depth maximizing ai).1 ∧
    (minimax b depth maximizing ai ⊥ ⊤).2 ≤ (minimax_noprune b depth maximizing ai).2 := by
  obtain ⟨z, nn, zp, np2, hA, hP, hn, hE, -, -⟩ :=
    minimaxGo_bracket ai (emptyCount b + 1) b depth maximizing ⊥ ⊤ (by omega) bot_lt_top_EI
  have hzzp : z = zp := hE (bot_lt_iv z) (iv_lt_top z)
  rw [minimax, minimax_noprune, hA, hP]
  subst hzzp
  exact ⟨rfl, hn⟩

/-- The root values of the pruned and the unpruned driver coincide. -/
theorem rootVal_eq_NP (b : Board) (ai : Player) (max_depth : ℤ) :
    rootVal b ai max_depth = rootValNP b ai max_depth :=
  funext fun _ => (minimax_fullwindow_eq_noprune _ _ _ _).1

/-- The pruned driver expands no more nodes per root move. -/
theorem rootNodes_le_NP (b : Board) (ai : Player) (max_depth : ℤ) (col : ℕ) :
    rootNodes b ai max_depth col ≤ rootNodesNP b ai max_depth col :=
  (minimax_fullwindow_eq_noprune _ _ _ _).2

/-- The unpruned root loop computes the abstract selection fold on the
unpruned root values, and the sum of the per-child node counts. -/
theorem bestLoopNP_eq_selectLoop (b : Board) (ai : Player) (max_depth : ℤ) :
    ∀ (moves : List ℕ) (best_score : EI) (best_col nodes : ℕ),
      bestLoopNP b ai max_depth moves best_score best_col nodes =
        (selectLoop (rootValNP b ai max_depth) moves best_score best_col,
          nodes + (moves.map (rootNodesNP b ai max_depth)).sum) := by
  intro moves
  induction moves with
  | nil =>
    intro bs bc nodes
    simp [bestLoopNP, selectLoop]
  | cons col rest ih =>
    intro bs bc nodes
    simp only [bestLoopNP, selectLoop, rootValNP, rootNodesNP, List.map_cons, List.sum_cons]
    by_cases hc : bs < (minimax_noprune ((make_move b (col : ℤ) ai.toNat).getD b)
        (max_depth - 1) false ai).1
    · rw [if_pos hc, if_pos hc, ih]
      simp [rootValNP, rootNodesNP, Nat.add_assoc]
    · rw [if_neg hc, if_neg hc, ih]
      simp [rootValNP, rootNodesNP, Nat.add_assoc]

/-- C1: on every board, for either AI identity and every depth, the
alpha-beta-pruned driver returns the identical chosen column as the
unpruned full minimax driver, and it expands at most as many nodes. -/
theorem alphabeta_refines_minimax (b : Board) (ai : Player) (max_depth : ℤ) :
    ((get_best_move b ai max_depth).map Prod.fst =
      (get_best_move_noprune b ai max_depth).map Prod.fst) ∧
    (∀ p q, get_best_move b ai max_depth = some p →
      get_best_move_noprune b ai max_depth = some q → p.2 ≤ q.2) := by
  rcases hmoves : _order_moves (get_legal_moves b) with - | ⟨m0, ms⟩
  · constructor
    · rw [get_best_move, get_best_move_noprune, hmoves]
    · intro p q hp hq
      rw [get_best_move, hmoves] at hp
      exact absurd hp (by simp)
  · have h1 : get_best_move b ai max_depth =
        some (selectLoop (rootVal b ai max_depth) (m0 :: ms) ⊥ m0,
          0 + ((m0 :: ms).map (rootNodes b ai max_depth)).sum) := by
      rw [get_best_move, hmoves]
      show some (bestLoop b ai max_depth (m0 :: ms) ⊥ m0 0) = _
      rw [bestLoop_eq_selectLoop]
    have h2 : get_best_move_noprune b ai max_depth =
        some (selectLoop (rootValNP b ai max_depth) (m0 :: ms) ⊥ m0,
          0 + ((m0 :: ms).map (rootNodesNP b ai max_depth)).sum) := by
      rw [get_best_move_noprune, hmoves]
      show some (bestLoopNP b ai max_depth (m0 :: ms) ⊥ m0 0) = _
      rw [bestLoopNP_eq_selectLoop]
    constructor
    · rw [h1, h2, rootVal_eq_NP]
      rfl
    · intro p q hp hq
      rw [h1] at hp
      rw [h2] at hq
      have hp2 : p.2 = 0 + ((m0 :: ms).map (rootNodes b ai max_depth)).sum := by
        rw [← Option.some_inj.mp hp]
      have hq2 : q.2 = 0 + ((m0 :: ms).map (rootNodesNP b ai max_depth)).sum := by
        rw [← Option.some_inj.mp hq]
      rw [hp2, hq2]
      refine Nat.add_le_add (le_refl 0) ?_
      exact List.sum_le_sum (fun c _ => rootNodes_le_NP b ai max_depth c)

/-- Witness for C1 at a concrete input: on the empty board at depth 1
both drivers choose column 3 with 7 expanded nodes, and the node
inequality instantiates there. -/
theorem alphabeta_refines_minimax_witness :
    get_best_move create_board Player.P1 1 = some (3, 7) ∧
    get_best_move_noprune create_board Player.P1 1 = some (3, 7) ∧
    ((3, 7) : ℕ × ℕ).2 ≤ ((3, 7) : ℕ × ℕ).2 :=
  ⟨by decide, by decide,
    (alphabeta_refines_minimax create_board Player.P1 1).2 (3, 7) (3, 7)
      (by decide) (by decide)⟩
